/-
Verification of the coordination core of `claude-autonomous-dev-v2`
against its natural-language specification.

The Python modules under `src/` are shallowly embedded as executable Lean
definitions.  Conventions used throughout:

* Python `float` values that the claims treat only through arithmetic and
  ordering (scores, parameter values, rates) are modelled as rationals `ℚ`;
  timestamps produced by `time.time()` are modelled as a `Nat` clock that
  callers pass explicitly.
* Python `dict`s are modelled as association lists in insertion order, and
  Python `set`s as duplicate-free lists; set iteration order, which CPython
  leaves unspecified, is fixed to insertion order here (none of the proved
  properties depends on that order).
* `heapq` is modelled as a functional priority queue: `heappush` appends to
  the backing list and `heappop` removes a minimal element under the
  element's `__lt__`; among elements that `__lt__` cannot distinguish the
  earliest pushed one is taken.
* Fallible lookups return `Option`; loops that Python bounds only by its
  dynamic semantics take an explicit fuel argument, and theorems either
  supply provably sufficient fuel or carry a sufficiency hypothesis.
-/

import Mathlib

namespace AutoDev

/-! # Flaky detector (`src/flaky_detector.py`) -/

/-- `TestRun` dataclass: a single test run result. -/
structure TestRun where
  testName : String
  passed : Bool
  timestamp : Nat
  durationMs : Option ℚ := none
  errorMessage : Option String := none
  deriving Repr, DecidableEq

/-- `TestHistory` dataclass: history of runs for a single test. -/
structure TestHistory where
  testName : String
  runs : List TestRun := []
  deriving Repr, DecidableEq

namespace TestHistory

/-- `TestHistory.add_run`. -/
def addRun (h : TestHistory) (r : TestRun) : TestHistory :=
  { h with runs := h.runs ++ [r] }

/-- `TestHistory.pass_rate`: `1.0` on an empty history, otherwise the
fraction of passed runs. -/
def passRate (h : TestHistory) : ℚ :=
  if h.runs = [] then 1
  else ((h.runs.countP (·.passed)) : ℚ) / (h.runs.length : ℚ)

/-- The transition count of `flakiness_score`: the number of indices `i ≥ 1`
with `runs[i].passed ≠ runs[i-1].passed` (the `for i in range(1, len(runs))`
loop, expressed by walking adjacent pairs). -/
def transitions : List TestRun → Nat
  | a :: b :: rest => (if a.passed ≠ b.passed then 1 else 0) + transitions (b :: rest)
  | _ => 0

/-- `TestHistory.flakiness_score`: 0 for fewer than two runs, otherwise
`transitions / (len(runs) - 1)` (the source also re-guards the divisor). -/
def flakinessScore (h : TestHistory) : ℚ :=
  if h.runs.length < 2 then 0
  else
    let maxTransitions := h.runs.length - 1
    if maxTransitions > 0 then (transitions h.runs : ℚ) / (maxTransitions : ℚ)
    else 0

end TestHistory

/-- The spec's formula for the flakiness score:
`transitions / max(1, n-1)`. -/
def specFlakinessScore (h : TestHistory) : ℚ :=
  (TestHistory.transitions h.runs : ℚ) / (max 1 (h.runs.length - 1) : ℕ)

/-! # Self-optimizer (`src/self_optimizer.py`) -/

/-- `ParameterRange` dataclass. -/
structure ParameterRange where
  minValue : ℚ
  maxValue : ℚ
  step : ℚ := 1
  deriving Repr, DecidableEq

namespace ParameterRange

/-- `ParameterRange.is_valid`. -/
def isValid (r : ParameterRange) (v : ℚ) : Bool :=
  r.minValue ≤ v ∧ v ≤ r.maxValue

/-- `ParameterRange.clamp`: `max(min_value, min(max_value, value))`. -/
def clamp (r : ParameterRange) (v : ℚ) : ℚ :=
  max r.minValue (min r.maxValue v)

end ParameterRange

/-- `ParameterHistoryEntry` dataclass. -/
structure ParameterHistoryEntry where
  value : ℚ
  timestamp : Nat
  deriving Repr, DecidableEq

/-- `TuningParameter` dataclass. -/
structure TuningParameter where
  name : String
  currentValue : ℚ
  range : ParameterRange
  history : List ParameterHistoryEntry
  deriving Repr, DecidableEq

namespace TuningParameter

/-- The `TuningParameter(...)` constructor together with `__post_init__`,
which appends the initial value to the (empty) history.  `now` models the
`time.time()` default of the history entry. -/
def mkInit (name : String) (currentValue : ℚ) (range : ParameterRange)
    (now : Nat) : TuningParameter :=
  { name := name, currentValue := currentValue, range := range
    history := [⟨currentValue, now⟩] }

/-- `TuningParameter.adjust`: clamp the new value into the range and append
it to the history. -/
def adjust (p : TuningParameter) (newValue : ℚ) (now : Nat) : TuningParameter :=
  let v := p.range.clamp newValue
  { p with currentValue := v, history := p.history ++ [⟨v, now⟩] }

end TuningParameter

/-- The slice of `SelfOptimizer` state that `register_parameter` and
`get_parameter` touch: the `_parameters` dict (insertion-ordered). -/
structure SelfOptimizer where
  learningRate : ℚ := 1/10
  parameters : List (String × TuningParameter) := []
  deriving Repr, DecidableEq

namespace SelfOptimizer

/-- Insertion-ordered dict update (`self._parameters[name] = param`). -/
def setParam : List (String × TuningParameter) → String → TuningParameter →
    List (String × TuningParameter)
  | [], k, v => [(k, v)]
  | (a, b) :: rest, k, v =>
    if a = k then (a, v) :: rest else (a, b) :: setParam rest k v

/-- `SelfOptimizer.register_parameter`.  Note that the initial value is
stored as given — it is NOT clamped into the range. -/
def registerParameter (o : SelfOptimizer) (name : String) (initialValue : ℚ)
    (minValue maxValue : ℚ) (step : ℚ) (now : Nat) : SelfOptimizer :=
  let param := TuningParameter.mkInit name initialValue
    ⟨minValue, maxValue, step⟩ now
  { o with parameters := setParam o.parameters name param }

/-- `SelfOptimizer.get_parameter`. -/
def getParameter (o : SelfOptimizer) (name : String) : Option TuningParameter :=
  o.parameters.lookup name

end SelfOptimizer

/-! # Loop control (`src/loop_control.py`) -/

/-- `IterationRecord` dataclass. -/
structure IterationRecord where
  iteration : Nat
  timestamp : Nat
  filesChanged : Nat := 0
  testsPassed : Nat := 0
  error : Option String := none
  deriving Repr, DecidableEq

/-- `str(hash(error))` as used by `LoopState.record_error`.  CPython's
string hash is modelled as an injective function, so equality of the
stored hash strings coincides with equality of the raw error strings;
no normalization of any kind is applied by `record_error`. -/
def errorHashStr (e : String) : String := e

/-- `LoopState` dataclass (the fields `record_error` / `record_progress`
read and write). -/
structure LoopState where
  iteration : Nat := 0
  errorsCount : Nat := 0
  lastError : Option String := none
  consecutiveSameError : Nat := 0
  consecutiveNoProgress : Nat := 0
  stuckThreshold : Nat := 5
  noProgressThreshold : Nat := 3
  lastErrorHash : Option String := none
  history : List IterationRecord := []
  deriving Repr, DecidableEq

namespace LoopState

/-- Amend the last history record's `error` field when it belongs to the
current iteration (the tail of `record_error`). -/
def amendLastError (hist : List IterationRecord) (iter : Nat)
    (e : String) : List IterationRecord :=
  match hist.getLast? with
  | some last =>
    if last.iteration = iter then
      hist.dropLast ++ [{ last with error := some e }]
    else hist
  | none => hist

/-- `LoopState.record_error`: bump the error counters, latch
`str(hash(error))`, and amend the current iteration's history record. -/
def recordError (s : LoopState) (e : String) : LoopState :=
  let s := { s with errorsCount := s.errorsCount + 1, lastError := some e }
  let errorHash := errorHashStr e
  let s :=
    if s.lastErrorHash = some errorHash then
      { s with consecutiveSameError := s.consecutiveSameError + 1 }
    else
      { s with consecutiveSameError := 1, lastErrorHash := some errorHash }
  { s with history := amendLastError s.history s.iteration e }

end LoopState

/-! # Agent protocol (`src/agent_protocol.py`) -/

/-- `MessageType` enum. -/
inductive MessageType where
  | taskAssignment | taskCompletion | statusUpdate | errorReport
  | workStealRequest | workStealResponse | heartbeat | shutdownMsg
  deriving Repr, DecidableEq

/-- `MessagePriority` IntEnum: CRITICAL=1, HIGH=2, NORMAL=3, LOW=4. -/
def MessagePriority := Int

/-- `Message` dataclass.  The payload dict is modelled as a string-keyed
association list of opaque string values; the `time.time()` timestamp is a
`Nat` clock value. -/
structure Message where
  msgType : MessageType
  sender : String
  recipient : String
  payload : List (String × String) := []
  priority : Int := 3
  msgId : String := ""
  timestamp : Nat := 0
  replyTo : Option String := none
  deriving Repr, DecidableEq

namespace Message

/-- `Message.__lt__`: compare by priority then timestamp. -/
def lt (m other : Message) : Bool :=
  if m.priority ≠ other.priority then m.priority < other.priority
  else m.timestamp < other.timestamp

end Message

/-- A subscriber handler.  A Python handler is an arbitrary callable; the
bus-visible effect of running it is the list of messages it publishes back
to the bus during the call, which is what this function returns. -/
def Handler := Message → List Message

/-- `MessageBus` state: the `heapq` priority queue (as its backing
multiset, in push order), the `_subscribers` dict in insertion order, and
the bounded `_history`. -/
structure MessageBus where
  queue : List Message := []
  subscribers : List (String × Handler) := []
  history : List Message := []
  maxHistory : Nat := 1000

/-- `heapq.heappop` on the message queue: remove a minimal element under
`Message.__lt__`; among mutually non-less elements the earliest pushed one
is returned (CPython's heap makes some such choice; none of the proved
properties depends on which). -/
def popMinMsg : List Message → Option (Message × List Message)
  | [] => none
  | m :: rest =>
    match popMinMsg rest with
    | none => some (m, [])
    | some (m', rest') =>
      if Message.lt m' m then some (m', m :: rest') else some (m, rest)

/-- `MessageBus.publish`: `heapq.heappush(self._queue, message)`. -/
def MessageBus.publish (bus : MessageBus) (m : Message) : MessageBus :=
  { bus with queue := bus.queue ++ [m] }

/-- History append with the `_max_history` truncation
(`self._history = self._history[-self._max_history:]`). -/
def pushHistory (hist : List Message) (maxHistory : Nat) (m : Message) :
    List Message :=
  let h := hist ++ [m]
  if h.length > maxHistory then h.drop (h.length - maxHistory) else h

/-- One `deliver()` call returns the drained bus, the `delivered` count and
the delivery log: the sequence of `(subscriber, message)` handler
invocations, in order. -/
structure DeliverResult where
  bus : MessageBus
  delivered : Nat
  log : List (String × Message)

/-- The `while self._queue:` loop of `MessageBus.deliver`.  Handlers run
inside the loop, and anything they publish lands back on the live queue,
so the loop also drains messages published mid-call.  `fuel` models
Python's unbounded iteration; every theorem below either supplies
provably sufficient fuel or proves the loop stops earlier. -/
def deliverLoop (subs : List (String × Handler)) (maxHistory : Nat) :
    Nat → List Message → List Message → Nat → List (String × Message) →
    (List Message × List Message × Nat × List (String × Message))
  | 0, q, hist, count, log => (q, hist, count, log)
  | fuel + 1, q, hist, count, log =>
    match popMinMsg q with
    | none => (q, hist, count, log)
    | some (m, rest) =>
      let hist' := pushHistory hist maxHistory m
      if m.recipient = "*" then
        -- broadcast: every registered handler is invoked once
        let pubs := subs.flatMap (fun s => s.2 m)
        deliverLoop subs maxHistory fuel (rest ++ pubs) hist'
          (count + subs.length) (log ++ subs.map (fun s => (s.1, m)))
      else
        match subs.lookup m.recipient with
        | some h =>
          deliverLoop subs maxHistory fuel (rest ++ h m) hist'
            (count + 1) (log ++ [(m.recipient, m)])
        | none => deliverLoop subs maxHistory fuel rest hist' count log

/-- `MessageBus.deliver`. -/
def MessageBus.deliver (bus : MessageBus) (fuel : Nat) : DeliverResult :=
  let r := deliverLoop bus.subscribers bus.maxHistory fuel bus.queue
    bus.history 0 []
  { bus := { bus with queue := r.1, history := r.2.1 }
    delivered := r.2.2.1
    log := r.2.2.2 }

/-! # Parallel executor (`src/parallel_executor.py`) -/

/-- `TaskPriority` IntEnum. -/
inductive TaskPriority where
  | critical | high | normal | low
  deriving Repr, DecidableEq

/-- The `.value` of a `TaskPriority`. -/
def TaskPriority.val : TaskPriority → Int
  | .critical => 1
  | .high => 2
  | .normal => 3
  | .low => 4

/-- `TaskStatus` enum. -/
inductive TaskStatus where
  | pending | queued | inProgress | completed | failed | blocked
  deriving Repr, DecidableEq

/-- `AgentStatus` enum. -/
inductive AgentStatus where
  | idle | busy | stealing | stopped
  deriving Repr, DecidableEq

/-- `Task` dataclass.  `created_at` (a `time.time()` value) is a `Nat`
clock value; the metadata dict carries opaque string values. -/
structure Task where
  taskId : String
  name : String
  priority : TaskPriority
  status : TaskStatus := .pending
  dependencies : List String := []
  metadata : List (String × String) := []
  createdAt : Nat := 0
  deriving Repr, DecidableEq

namespace Task

/-- `Task.is_ready`: all dependencies are in the completed set. -/
def isReady (t : Task) (completedTasks : List String) : Bool :=
  t.dependencies.all (· ∈ completedTasks)

/-- `Task.__lt__`: compare by priority value, then creation time. -/
def lt (t other : Task) : Bool :=
  if t.priority.val ≠ other.priority.val then t.priority.val < other.priority.val
  else t.createdAt < other.createdAt

end Task

/-- `WorkResult` dataclass. -/
structure WorkResult where
  taskId : String
  success : Bool
  output : Option String := none
  error : Option String := none
  durationMs : Option Nat := none
  timestamp : Nat := 0
  deriving Repr, DecidableEq

/-- `Agent` state. -/
structure AgentState where
  agentId : String
  status : AgentStatus := .idle
  currentTask : Option Task := none
  completedCount : Nat := 0
  taskStartTime : Option Nat := none
  deriving Repr, DecidableEq

namespace AgentState

/-- `Agent.__init__`. -/
def init (agentId : String) : AgentState := { agentId := agentId }

/-- `Agent.assign_task`: store the task with status IN_PROGRESS and turn
BUSY. -/
def assignTask (a : AgentState) (t : Task) (now : Nat) : AgentState :=
  { a with currentTask := some { t with status := .inProgress }
           status := .busy
           taskStartTime := some now }

/-- `Agent.complete_task`: mark the task COMPLETED or FAILED, build a
`WorkResult`, bump the completion counter and return to IDLE. -/
def completeTask (a : AgentState) (success : Bool) (output error : Option String)
    (now : Nat) : AgentState × WorkResult :=
  let taskId := match a.currentTask with
    | some t => t.taskId
    | none => "unknown"
  let durationMs := a.taskStartTime.map (fun start => (now - start) * 1000)
  let result : WorkResult :=
    { taskId := taskId, success := success, output := output, error := error
      durationMs := durationMs, timestamp := now }
  ({ a with completedCount := a.completedCount + 1
            currentTask := none
            status := .idle
            taskStartTime := none }, result)

/-- `Agent.start_stealing`. -/
def startStealing (a : AgentState) : AgentState := { a with status := .stealing }

/-- `Agent.stop_stealing`. -/
def stopStealing (a : AgentState) : AgentState :=
  if a.status = .stealing then { a with status := .idle } else a

/-- `Agent.stop`: set STOPPED; note that `current_task` is left in place. -/
def stop (a : AgentState) : AgentState := { a with status := .stopped }

end AgentState

/-- `WorkQueue`: the `heapq` heap (as its backing multiset in push order)
plus the `_task_map` index. -/
structure WorkQueue where
  heap : List Task := []
  taskMap : List (String × Task) := []
  deriving Repr, DecidableEq

namespace WorkQueue

/-- `heapq.heappop` on tasks (see `popMinMsg`): remove a minimal element
under `Task.__lt__`, earliest pushed among mutually non-less ones. -/
def popMinTask : List Task → Option (Task × List Task)
  | [] => none
  | t :: rest =>
    match popMinTask rest with
    | none => some (t, [])
    | some (t', rest') =>
      if Task.lt t' t then some (t', t :: rest') else some (t, rest)

/-- Dict update for `_task_map`. -/
def setMap : List (String × Task) → String → Task → List (String × Task)
  | [], k, v => [(k, v)]
  | (a, b) :: rest, k, v =>
    if a = k then (a, v) :: rest else (a, b) :: setMap rest k v

/-- `WorkQueue.enqueue`: set status QUEUED, push, index. -/
def enqueue (q : WorkQueue) (t : Task) : WorkQueue :=
  let t' := { t with status := TaskStatus.queued }
  { heap := q.heap ++ [t'], taskMap := setMap q.taskMap t'.taskId t' }

/-- `WorkQueue.dequeue`: pop the minimal task and drop it from the index. -/
def dequeue (q : WorkQueue) : Option Task × WorkQueue :=
  match popMinTask q.heap with
  | some (t, rest) =>
    (some t, { heap := rest, taskMap := q.taskMap.filter (·.1 ≠ t.taskId) })
  | none => (none, q)

/-- `WorkQueue.is_empty`. -/
def isEmpty (q : WorkQueue) : Bool := q.heap.isEmpty

/-- `WorkQueue.size`. -/
def size (q : WorkQueue) : Nat := q.heap.length

end WorkQueue

/-- `ParallelExecutor` state. -/
structure Executor where
  agents : List AgentState
  queue : WorkQueue := {}
  completed : List Task := []
  completedIds : List String := []
  blockedTasks : List Task := []
  deriving Repr, DecidableEq

namespace Executor

/-- `ParallelExecutor.__init__(num_agents)`. -/
def init (numAgents : Nat) : Executor :=
  { agents := (List.range numAgents).map
      (fun i => AgentState.init ("agent-" ++ toString i)) }

/-- `set.add` on the completed-id set (duplicate-free list). -/
def addId (ids : List String) (i : String) : List String :=
  if i ∈ ids then ids else ids ++ [i]

/-- `ParallelExecutor.submit`: enqueue if every dependency is completed,
otherwise mark BLOCKED and park the task. -/
def submit (e : Executor) (t : Task) : Executor :=
  if t.isReady e.completedIds then
    { e with queue := e.queue.enqueue t }
  else
    { e with blockedTasks := e.blockedTasks ++ [{ t with status := .blocked }] }

/-- `ParallelExecutor.assign_tasks`: walk the agents in order, handing each
IDLE agent the head of the queue while the queue is non-empty.  Returns
the updated executor and the number of assignments. -/
def assignTasks (e : Executor) (now : Nat) : Executor × Nat :=
  let step := fun (acc : List AgentState × WorkQueue × Nat) (a : AgentState) =>
    let (done, q, n) := acc
    if a.status = .idle ∧ ¬ q.isEmpty then
      match q.dequeue with
      | (some t, q') => (done ++ [a.assignTask t now], q', n + 1)
      | (none, q') => (done ++ [a], q', n)
    else (done ++ [a], q, n)
  let (agents', q', n) := e.agents.foldl step ([], e.queue, 0)
  ({ e with agents := agents', queue := q' }, n)

/-- `ParallelExecutor._find_agent`, as the index of the first agent with
the given id. -/
def findAgentIdx (e : Executor) (agentId : String) : Option Nat :=
  e.agents.findIdx? (·.agentId = agentId)

/-- `ParallelExecutor._unblock_tasks`: re-enqueue every blocked task whose
dependencies are now completed (its status passes through PENDING before
`enqueue` stamps it QUEUED). -/
def unblockTasks (e : Executor) : Executor :=
  let step := fun (acc : WorkQueue × List Task) (t : Task) =>
    if t.isReady e.completedIds then
      (acc.1.enqueue { t with status := .pending }, acc.2)
    else (acc.1, acc.2 ++ [t])
  let (q', stillBlocked) := e.blockedTasks.foldl step (e.queue, [])
  { e with queue := q', blockedTasks := stillBlocked }

/-- `ParallelExecutor.complete_task`: complete the named agent's current
task; on success record the task as completed and run the unblock pass. -/
def completeTask (e : Executor) (agentId : String) (success : Bool)
    (output error : Option String) (now : Nat) : Executor × Option WorkResult :=
  match findAgentIdx e agentId with
  | none => (e, none)
  | some i =>
    match e.agents.get? i with
    | none => (e, none)
    | some a =>
      match a.currentTask with
      | none => (e, none)
      | some task =>
        let (a', result) := a.completeTask success output error now
        let task := { task with
          status := if success then TaskStatus.completed else TaskStatus.failed }
        let e := { e with agents := e.agents.set i a' }
        let e :=
          if success then
            unblockTasks { e with completed := e.completed ++ [task]
                                  completedIds := addId e.completedIds task.taskId }
          else e
        (e, some result)

/-- `ParallelExecutor.shutdown`: stop every agent (their current tasks are
left in place). -/
def shutdown (e : Executor) : Executor :=
  { e with agents := e.agents.map AgentState.stop }

end Executor

/-! ## Executor persistence (`ParallelExecutor.save` / `load`) -/

/-- One agent entry of the dispatcher snapshot. -/
structure AgentSnap where
  agentId : String
  status : AgentStatus
  completedCount : Nat
  deriving Repr, DecidableEq

/-- One task entry of the dispatcher snapshot.  `created_at` is NOT
serialized by `save`. -/
structure TaskSnap where
  taskId : String
  name : String
  priority : TaskPriority
  status : TaskStatus
  dependencies : List String
  metadata : List (String × String)
  deriving Repr, DecidableEq

/-- The dispatcher snapshot document
`{num_agents, agents, queue, blocked, completed_ids}`. -/
structure ExecutorSnapshot where
  numAgents : Nat
  agents : List AgentSnap
  queue : List TaskSnap
  blocked : List TaskSnap
  completedIds : List String
  deriving Repr, DecidableEq

/-- The task projection `save` writes. -/
def Task.toSnap (t : Task) : TaskSnap :=
  { taskId := t.taskId, name := t.name, priority := t.priority
    status := t.status, dependencies := t.dependencies, metadata := t.metadata }

/-- A snapshot task re-materialized by `load`; `created_at` falls back to
its `time.time()` default, modelled by the `now` clock argument. -/
def TaskSnap.toTask (s : TaskSnap) (now : Nat) : Task :=
  { taskId := s.taskId, name := s.name, priority := s.priority
    status := s.status, dependencies := s.dependencies, metadata := s.metadata
    createdAt := now }

namespace Executor

/-- `ParallelExecutor.save`. -/
def save (e : Executor) : ExecutorSnapshot :=
  { numAgents := e.agents.length
    agents := e.agents.map (fun a =>
      { agentId := a.agentId, status := a.status
        completedCount := a.completedCount })
    queue := e.queue.heap.map Task.toSnap
    blocked := e.blockedTasks.map Task.toSnap
    completedIds := e.completedIds }

/-- `ParallelExecutor.load`: build a FRESH executor with `num_agents`
agents, restore the completed-id set, re-`enqueue` the queued tasks and
re-append the blocked ones.  The saved agent statuses and completed
counts are never read back, and every restored task gets a fresh
`created_at` from `time.time()`, modelled as the clock value `now` of
the `load` call. -/
def load (snap : ExecutorSnapshot) (now : Nat) : Executor :=
  let e := init snap.numAgents
  let e := { e with completedIds := snap.completedIds }
  let e := snap.queue.foldl
    (fun acc s => { acc with queue := acc.queue.enqueue (s.toTask now) }) e
  let e := snap.blocked.foldl
    (fun acc s => { acc with blockedTasks := acc.blockedTasks ++ [s.toTask now] }) e
  e

end Executor

/-! # Dependency graph (`src/dependency_graph.py`) -/

/-- `FeatureStatus` enum. -/
inductive FeatureStatus where
  | pending | inProgress | complete | blocked
  deriving Repr, DecidableEq

/-- `Feature` dataclass. -/
structure Feature where
  id : String
  description : String := ""
  priority : Int
  dependencies : List String := []
  status : FeatureStatus := .pending
  effortEstimate : Int := 1
  passes : Bool := false
  deriving Repr, DecidableEq

/-- Python-dict assignment on an insertion-ordered association list:
replace in place if the key exists, else append. -/
def dictSet {β : Type} : List (String × β) → String → β → List (String × β)
  | [], k, v => [(k, v)]
  | (a, b) :: rest, k, v =>
    if a = k then (a, v) :: rest else (a, b) :: dictSet rest k v

/-- Python-dict lookup on an association list. -/
def dictGet {β : Type} (k : String) : List (String × β) → Option β
  | [] => none
  | (a, b) :: rest => if a = k then some b else dictGet k rest

/-- `set.add` on a duplicate-free list (insertion order fixed). -/
def setAdd (l : List String) (v : String) : List String :=
  if v ∈ l then l else l ++ [v]

/-- `defaultdict(set)` update `m[k].add(v)`. -/
def setMapAdd (m : List (String × List String)) (k v : String) :
    List (String × List String) :=
  match dictGet k m with
  | some s => dictSet m k (setAdd s v)
  | none => m ++ [(k, [v])]

/-- `DependencyGraph` state: the `_features` dict and the `_edges` /
`_reverse_edges` defaultdicts of sets. -/
structure DepGraph where
  features : List (String × Feature) := []
  edges : List (String × List String) := []
  revEdges : List (String × List String) := []
  deriving Repr, DecidableEq

namespace DepGraph

/-- `DependencyGraph.add_feature`: store the feature under its id and add
one edge (and reverse edge) per dependency. -/
def addFeature (g : DepGraph) (f : Feature) : DepGraph :=
  let g := { g with features := dictSet g.features f.id f }
  f.dependencies.foldl
    (fun g dep =>
      { g with edges := setMapAdd g.edges f.id dep
               revEdges := setMapAdd g.revEdges dep f.id }) g

/-- A graph built by a sequence of `add_feature` calls — every graph the
API can produce. -/
def ofList (fs : List Feature) : DepGraph := fs.foldl addFeature {}

/-- `self._edges.get(node, set())`. -/
def edgesOf (g : DepGraph) (n : String) : List String :=
  (dictGet n g.edges).getD []

/-- `self._reverse_edges.get(node, set())`. -/
def revEdgesOf (g : DepGraph) (n : String) : List String :=
  (dictGet n g.revEdges).getD []

/-- The keys of `_features`, in insertion order. -/
def nodes (g : DepGraph) : List String := g.features.map (·.1)

/-- The dependency relation of the graph: `Edge g u v` iff `v` is a
recorded dependency of `u`. -/
def Edge (g : DepGraph) (u v : String) : Prop := v ∈ edgesOf g u

instance (g : DepGraph) (u v : String) : Decidable (Edge g u v) := by
  unfold Edge; infer_instance

end DepGraph

/-! ## Cycle detection (`DependencyGraph.find_cycles`) -/

/-- The mutable state shared by `find_cycles` and its inner `dfs`. -/
structure DfsState where
  visited : List String := []
  recStack : List String := []
  path : List String := []
  cycles : List (List String) := []
  deriving Repr, DecidableEq

/-- The cycle-recording branch:
`cycle_start = path.index(neighbor); cycles.append(path[cycle_start:] + [neighbor])`
(the suffix of `path` from the first occurrence of `neighbor`; `neighbor`
is on `path` whenever this branch runs, since `rec_stack ⊆ path`). -/
def appendCycle (s : DfsState) (n : String) : DfsState :=
  { s with cycles := s.cycles ++ [(s.path.dropWhile (· ≠ n)) ++ [n]] }

/-- The entry bookkeeping of `dfs`: mark visited, push on the recursion
stack and the path. -/
def dfsEnter (s : DfsState) (u : String) : DfsState :=
  { s with visited := s.visited.insert u
           recStack := s.recStack.insert u
           path := s.path ++ [u] }

/-- The exit bookkeeping of `dfs` (only on the no-cycle return):
`path.pop(); rec_stack.remove(node)`. -/
def dfsExit (s : DfsState) (u : String) : DfsState :=
  { s with path := s.path.dropLast
           recStack := s.recStack.erase u }

mutual

/-- The inner `dfs(node)` of `find_cycles`.  Python's recursion depth is
unbounded; `fuel` is an embedding artifact, and `findCycles` supplies
fuel that is provably never exhausted (see `dfsVisit_spec`). -/
def dfsVisit (g : DepGraph) (fuel : Nat) (s : DfsState) (u : String) :
    DfsState × Bool :=
  match fuel with
  | 0 => (s, true)
  | fuel' + 1 =>
    match dfsNeighbors g fuel' (DepGraph.edgesOf g u) (dfsEnter s u) with
    | (s2, true) => (s2, true)
    | (s2, false) => (dfsExit s2 u, false)
termination_by (fuel, 0, 0)

/-- The `for neighbor in self._edges.get(node, set())` loop of `dfs`:
recurse into unvisited neighbors (early-returning on a found cycle) and
report a cycle on any neighbor that is on the recursion stack. -/
def dfsNeighbors (g : DepGraph) (fuel : Nat) (ns : List String)
    (s : DfsState) : DfsState × Bool :=
  match ns with
  | [] => (s, false)
  | n :: ns' =>
    if n ∉ s.visited then
      match dfsVisit g fuel s n with
      | (s', true) => (s', true)
      | (s', false) => dfsNeighbors g fuel ns' s'
    else if n ∈ s.recStack then (appendCycle s n, true)
    else dfsNeighbors g fuel ns' s
termination_by (fuel, 1, ns.length)

end

namespace DepGraph

/-- Every node the DFS can ever touch: the feature ids together with every
recorded edge target. -/
def universeNodes (g : DepGraph) : List String :=
  nodes g ++ g.edges.flatMap (·.2)

/-- Fuel that `dfsVisit` can never exhaust: recursion depth is bounded by
the number of distinct unvisited nodes. -/
def dfsFuel (g : DepGraph) : Nat := (universeNodes g).length + 1

/-- `DependencyGraph.find_cycles`: run `dfs` from every not-yet-visited
feature node, in insertion order. -/
def findCycles (g : DepGraph) : List (List String) :=
  ((nodes g).foldl
    (fun s node =>
      if node ∉ s.visited then (dfsVisit g (dfsFuel g) s node).1 else s)
    {}).cycles

/-- `DependencyGraph.has_cycle`. -/
def hasCycle (g : DepGraph) : Bool := (findCycles g).length > 0

end DepGraph

/-! ## Topological sort (`DependencyGraph.topological_sort`) -/

namespace DepGraph

/-- `self._features[node].priority`, the sort key of the ready queue
(`node` is always a feature id when this is evaluated). -/
def priorityOf (g : DepGraph) (n : String) : Int :=
  match dictGet n g.features with
  | some f => f.priority
  | none => 0

/-- `queue.sort(key=lambda x: self._features[x].priority)`: a stable sort
by priority. -/
def sortQueue (g : DepGraph) (q : List String) : List String :=
  q.insertionSort (fun a b => priorityOf g a ≤ priorityOf g b)

/-- `in_degree[dependent] -= 1` on the `defaultdict(int)`. -/
def decr (m : List (String × Int)) (k : String) : List (String × Int) :=
  match dictGet k m with
  | some v => dictSet m k (v - 1)
  | none => m ++ [(k, -1)]

/-- The in-degree of `k` in the running `defaultdict(int)`. -/
def degOf (m : List (String × Int)) (k : String) : Int :=
  (dictGet k m).getD 0

/-- The `for dependent in self._reverse_edges.get(node, set())` loop:
decrement each dependent's in-degree, collecting (in order) the ones that
hit exactly zero for appending to the queue. -/
def processDeps : List String → List (String × Int) →
    (List (String × Int) × List String)
  | [], m => (m, [])
  | d :: ds, m =>
    let m' := decr m d
    let rest := processDeps ds m'
    if degOf m' d = 0 then (rest.1, d :: rest.2) else rest

/-- The `while queue:` loop of `topological_sort`: stable-sort the queue
by priority, pop the head, emit its feature, and propagate in-degree
decrements.  The `none` branch models the `KeyError` Python would raise
on a queue entry that is not a feature id (unreachable: the queue only
ever holds feature ids).  `fuel` is an embedding artifact; `kahnFuel`
below is provably sufficient. -/
def kahnLoop (g : DepGraph) :
    Nat → List String → List (String × Int) → List Feature → List Feature
  | 0, _, _, result => result
  | fuel + 1, queue, inDeg, result =>
    match sortQueue g queue with
    | [] => result
    | node :: queueRest =>
      match dictGet node g.features with
      | none => result
      | some f =>
        let step := processDeps (revEdgesOf g node) inDeg
        kahnLoop g fuel (queueRest ++ step.2) step.1 (result ++ [f])

/-- Fuel bound for `kahnLoop`: the loop runs at most
`|queue| + Σ in-degrees` times. -/
def kahnFuel (g : DepGraph) : Nat :=
  g.features.length + (g.features.map (fun p => (edgesOf g p.1).length)).sum + 1

/-- The initial in-degree table:
`in_degree[node] = len(self._edges.get(node, set()))` per feature. -/
def inDegInit (g : DepGraph) : List (String × Int) :=
  g.features.map (fun p => (p.1, ((edgesOf g p.1).length : Int)))

/-- `DependencyGraph.topological_sort`. -/
def topologicalSort (g : DepGraph) : List Feature :=
  if hasCycle g then []
  else
    let inDeg := inDegInit g
    let queue := (nodes g).filter (fun n => degOf inDeg n = 0)
    kahnLoop g (kahnFuel g) queue inDeg []

/-- The graph is closed: every recorded dependency is itself a feature of
the graph (the spec's data-model invariant for a closed graph). -/
def Closed (g : DepGraph) : Prop :=
  ∀ u v, Edge g u v → v ∈ nodes g

/-- Executable closedness check (used to discharge `Closed` on concrete
graphs). -/
def closedCheck (g : DepGraph) : Bool :=
  g.edges.all (fun p => p.2.all (fun d => decide (d ∈ nodes g)))

/-- Structural well-formedness of a `DependencyGraph`, true of every graph
`add_feature` can build (see `wf_ofList`): the dict keys are duplicate
free, the edge sets are duplicate free, `_reverse_edges` is exactly the
transpose of `_edges`, every node with an outgoing edge is a feature,
features are stored under their own id, and each feature's `dependencies`
are recorded in `_edges`. -/
structure WF (g : DepGraph) : Prop where
  nodesNodup : (nodes g).Nodup
  edgesKeysNodup : (g.edges.map (·.1)).Nodup
  edgesNodup : ∀ k, (edgesOf g k).Nodup
  revNodup : ∀ k, (revEdgesOf g k).Nodup
  transpose : ∀ a b, b ∈ edgesOf g a ↔ a ∈ revEdgesOf g b
  edgeSrcFeature : ∀ a b, Edge g a b → a ∈ nodes g
  featureKey : ∀ p ∈ g.features, (p.2 : Feature).id = p.1
  depsRecorded : ∀ p ∈ g.features, ∀ d ∈ (p.2 : Feature).dependencies,
    d ∈ edgesOf g p.1

end DepGraph

/-! ## Ghost predicates for the DFS correctness argument -/

namespace DepGraph

/-- The "black" nodes of a DFS state: visited and no longer on the
recursion stack. -/
def Black (s : DfsState) (v : String) : Prop :=
  v ∈ s.visited ∧ v ∉ s.recStack

/-- A set of nodes closed under the dependency relation. -/
def ClosedUnder (g : DepGraph) (B : String → Prop) : Prop :=
  ∀ u, B u → ∀ v, Edge g u v → B v

/-- No node of the set lies on a dependency cycle. -/
def AcycOn (g : DepGraph) (B : String → Prop) : Prop :=
  ∀ u, B u → ¬ Relation.TransGen (Edge g) u u

/-- The node universe as a finset (for the DFS fuel measure). -/
def univFinset (g : DepGraph) : Finset String := (universeNodes g).toFinset

/-- Number of universe nodes not yet visited: the DFS recursion-depth
measure. -/
def unvisitedCard (g : DepGraph) (s : DfsState) : Nat :=
  ((univFinset g).filter (fun v => v ∉ s.visited)).card

/-- Structural DFS-state invariant: the recursion stack only holds visited
nodes. -/
def StackInv (s : DfsState) : Prop := ∀ v ∈ s.recStack, v ∈ s.visited

/-- The three-part precondition of the DFS specification lemmas. -/
def DfsPre (g : DepGraph) (s : DfsState) : Prop :=
  StackInv s ∧ ClosedUnder g (Black s) ∧ AcycOn g (Black s)

/-- Postcondition of a `dfs` call that returns `False` (no cycle): the
stack, path and recorded cycles are restored, the visited set grows, and
the argument node has turned black while the black set stays closed and
acyclic. -/
def DfsPost (g : DepGraph) (s s' : DfsState) (u : String) : Prop :=
  s'.recStack = s.recStack ∧ s'.path = s.path ∧ s'.cycles = s.cycles ∧
  (∀ v ∈ s.visited, v ∈ s'.visited) ∧ u ∈ s'.visited ∧
  (∀ v, Black s v → Black s' v) ∧ Black s' u ∧ DfsPre g s'

/-- Postcondition of the neighbor loop of `dfs` when it reports no cycle:
state restored as in `DfsPost`, and every neighbor has turned black. -/
def NPost (g : DepGraph) (s s' : DfsState) (ns : List String) : Prop :=
  s'.recStack = s.recStack ∧ s'.path = s.path ∧ s'.cycles = s.cycles ∧
  (∀ v ∈ s.visited, v ∈ s'.visited) ∧
  (∀ v, Black s v → Black s' v) ∧ DfsPre g s' ∧
  ∀ x ∈ ns, Black s' x

/-- Number of not-yet-emitted dependencies of `k`, given the emitted-id
list `em` — what `in_degree[k]` tracks during Kahn's algorithm. -/
def remDeg (g : DepGraph) (em : List String) (k : String) : Nat :=
  (edgesOf g k).countP (fun d => decide (d ∉ em))

/-- The Kahn loop measure: queue length plus all remaining in-degrees. -/
def kahnMeasure (g : DepGraph) (em queue : List String) : Nat :=
  queue.length + ((nodes g).map (remDeg g em)).sum

/-- The Kahn loop invariant, over the pending queue, the in-degree table
and the emitted feature list. -/
def KahnInv (g : DepGraph) (queue : List String)
    (inDeg : List (String × Int)) (result : List Feature) : Prop :=
  let em := result.map (·.id)
  (∀ f ∈ result, dictGet f.id g.features = some f) ∧
  (em ++ queue).Nodup ∧
  (∀ x ∈ em ++ queue, x ∈ nodes g) ∧
  (∀ k ∈ nodes g, degOf inDeg k = (remDeg g em k : Int)) ∧
  (∀ k ∈ nodes g, k ∉ em → (k ∈ queue ↔ remDeg g em k = 0)) ∧
  (∀ i : Fin result.length, ∀ d ∈ edgesOf g (result.get i).id,
    ∃ j : Fin result.length, (j : Nat) < i ∧ (result.get j).id = d)

end DepGraph

/-! ## Spec-side definitions and concrete scenarios used by the claims -/

/-- The per-message contribution to the `deliver()` return value: one per
subscriber for a broadcast, one for a registered recipient, zero
otherwise. -/
def msgDeliveryCount (subs : List (String × Handler)) (m : Message) : Nat :=
  if m.recipient = "*" then subs.length
  else if (subs.lookup m.recipient).isSome then 1 else 0

/-- Agent states reachable through the `Agent` API (`assign_task`,
`complete_task`, `start_stealing`, `stop_stealing`, `stop`), which is
exactly what `ParallelExecutor`'s operations (including `shutdown`)
invoke. -/
inductive AgentReachable : AgentState → Prop where
  | init (i : String) : AgentReachable (AgentState.init i)
  | assign {a : AgentState} (t : Task) (now : Nat) :
      AgentReachable a → AgentReachable (a.assignTask t now)
  | complete {a : AgentState} (success : Bool) (output error : Option String)
      (now : Nat) :
      AgentReachable a → AgentReachable (a.completeTask success output error now).1
  | startSteal {a : AgentState} : AgentReachable a → AgentReachable a.startStealing
  | stopSteal {a : AgentState} : AgentReachable a → AgentReachable a.stopStealing
  | stop {a : AgentState} : AgentReachable a → AgentReachable a.stop

/-- C1 scenarios: a feature whose dependency is never added (open graph),
a two-node closed chain, and a self-loop. -/
def c1OpenGraph : DepGraph := DepGraph.ofList [{ id := "A", priority := 1, dependencies := ["B"] }]

def c1ChainList : List Feature :=
  [{ id := "A", priority := 1, dependencies := ["B"] }, { id := "B", priority := 2 }]

def c1LoopList : List Feature := [{ id := "X", priority := 1, dependencies := ["X"] }]

/-- C2 witness scenario: LOW, CRITICAL, NORMAL published to one
subscriber whose handler publishes nothing. -/
def c2Msg (p : Int) (ts : Nat) : Message :=
  { msgType := .statusUpdate, sender := "s", recipient := "a"
    priority := p, timestamp := ts }

def c2Bus : MessageBus :=
  { queue := [c2Msg 4 0, c2Msg 1 1, c2Msg 3 2]
    subscribers := [("a", fun _ => [])] }

/-- C2/C3 counterexample scenario: the handler of `"a"`, upon receiving
the NORMAL-priority trigger, publishes a CRITICAL message back to the
bus while `deliver()` is still draining. -/
def c3Trigger : Message :=
  { msgType := .statusUpdate, sender := "s", recipient := "a"
    priority := 3, timestamp := 0, payload := [("k", "trigger")] }

def c3Crit : Message :=
  { msgType := .statusUpdate, sender := "a", recipient := "a"
    priority := 1, timestamp := 1 }

def c3Bus : MessageBus :=
  { queue := [c3Trigger]
    subscribers :=
      [("a", fun m => if m.payload = [("k", "trigger")] then [c3Crit] else [])] }

/-- C10 witness scenario: a broadcast, a directly addressed message, and a
message whose recipient has no handler. -/
def c10Broadcast : Message :=
  { msgType := .statusUpdate, sender := "s", recipient := "*"
    priority := 2, timestamp := 0 }

def c10Direct : Message :=
  { msgType := .statusUpdate, sender := "s", recipient := "a"
    priority := 3, timestamp := 1 }

def c10Ghost : Message :=
  { msgType := .statusUpdate, sender := "s", recipient := "ghost"
    priority := 3, timestamp := 2 }

def c10Bus : MessageBus :=
  { queue := [c10Broadcast, c10Direct, c10Ghost]
    subscribers := [("a", fun _ => []), ("b", fun _ => [])] }

/-- C4 scenario: t2 (depending on t1) submitted before t1, two agents. -/
def c4t1 : Task := { taskId := "t1", name := "Task 1", priority := .normal, createdAt := 1 }

def c4t2 : Task :=
  { taskId := "t2", name := "Task 2", priority := .normal
    dependencies := ["t1"], createdAt := 0 }

/-- Executor after the first `assign_tasks()`. -/
def c4AfterFirstAssign : Executor :=
  ((((Executor.init 2).submit c4t2).submit c4t1).assignTasks 10).1

/-- Executor after completing t1 on agent-0 and re-running
`assign_tasks()`. -/
def c4AfterSecondAssign : Executor :=
  (((c4AfterFirstAssign.completeTask "agent-0" true none none 20).1).assignTasks 30).1

/-- C7 scenario: a one-agent executor that has completed one task. -/
def c7Exec : Executor :=
  ((((Executor.init 1).submit c4t1).assignTasks 5).1.completeTask
    "agent-0" true none none 9).1

/-- C8 scenario: shutdown while agent-0 is BUSY with t1. -/
def c8Exec : Executor :=
  Executor.shutdown (((Executor.init 2).submit c4t1).assignTasks 5).1

def c8Agent : AgentState := (c8Exec.agents.get? 0).getD (AgentState.init "none")

/-! # Theorems

## C9 — flakiness score -/

namespace TestHistory

lemma transitions_le : ∀ (l : List TestRun), transitions l ≤ l.length - 1
  | [] => by simp [transitions]
  | [a] => by simp [transitions]
  | a :: b :: rest => by
    have ih := transitions_le (b :: rest)
    simp only [transitions, List.length_cons] at *
    split <;> omega

lemma transitions_const (b : Bool) :
    ∀ (l : List TestRun), (∀ r ∈ l, r.passed = b) → transitions l = 0
  | [] => by simp [transitions]
  | [a] => by simp [transitions]
  | a :: c :: rest => by
    intro hconst
    have ha : a.passed = b := hconst a (by simp)
    have hc : c.passed = b := hconst c (by simp)
    have ih := transitions_const b (c :: rest)
      (fun r hr => hconst r (List.mem_cons_of_mem _ hr))
    simp [transitions, ha, hc, ih]

lemma transitions_short (l : List TestRun) (h : l.length < 2) : transitions l = 0 := by
  match l, h with
  | [], _ => rfl
  | [a], _ => rfl

end TestHistory

/-- **C9.**  For every `TestHistory` `h` with `n` runs, `flakiness_score`
equals `transitions / max(1, n-1)` where `transitions` counts adjacent
runs with differing `passed`; hence for `n ≥ 2` the score lies in `[0,1]`,
a constant-`passed` history scores `0`, and an empty history scores `0`
with `pass_rate() = 1.0`. -/
theorem flakiness_score_correct (h : TestHistory) :
    TestHistory.flakinessScore h = specFlakinessScore h ∧
    (2 ≤ h.runs.length →
      0 ≤ TestHistory.flakinessScore h ∧ TestHistory.flakinessScore h ≤ 1) ∧
    ((∀ r₁ ∈ h.runs, ∀ r₂ ∈ h.runs, r₁.passed = r₂.passed) →
      TestHistory.flakinessScore h = 0) ∧
    (h.runs = [] →
      TestHistory.flakinessScore h = 0 ∧ TestHistory.passRate h = 1) := by
  have hscore : TestHistory.flakinessScore h = specFlakinessScore h := by
    by_cases hlen : h.runs.length < 2
    · have ht : TestHistory.transitions h.runs = 0 :=
        TestHistory.transitions_short _ hlen
      simp [TestHistory.flakinessScore, specFlakinessScore, hlen, ht]
    · push_neg at hlen
      have hmax : (max 1 (h.runs.length - 1)) = h.runs.length - 1 := by omega
      have hpos : 0 < h.runs.length - 1 := by omega
      simp [TestHistory.flakinessScore, specFlakinessScore, hmax, hpos,
        Nat.not_lt.mpr hlen]
  refine ⟨hscore, ?_, ?_, ?_⟩
  · intro h2
    have hnl : ¬ (h.runs.length < 2) := by omega
    have hpos : 0 < h.runs.length - 1 := by omega
    have hle : TestHistory.transitions h.runs ≤ h.runs.length - 1 :=
      TestHistory.transitions_le _
    have hposQ : (0 : ℚ) < ((h.runs.length - 1 : ℕ) : ℚ) := by
      exact_mod_cast hpos
    constructor
    · simp only [TestHistory.flakinessScore, if_neg hnl, if_pos hpos]
      positivity
    · simp only [TestHistory.flakinessScore, if_neg hnl, if_pos hpos]
      rw [div_le_one hposQ]
      exact_mod_cast hle
  · intro hconst
    rcases hl : h.runs with _ | ⟨r, rest⟩
    · simp [TestHistory.flakinessScore, hl]
    · have hzero : TestHistory.transitions h.runs = 0 := by
        refine TestHistory.transitions_const r.passed _ (fun x hx => ?_)
        exact hconst x hx r (by rw [hl]; exact List.mem_cons_self r rest)
      by_cases hlen : h.runs.length < 2
      · simp [TestHistory.flakinessScore, hlen]
      · simp [TestHistory.flakinessScore, hlen, hzero]
  · intro hempty
    simp [TestHistory.flakinessScore, TestHistory.passRate, hempty]

/-- Witness for C9 at concrete histories: a three-run alternating history
(score in `[0,1]`), a constant history (score `0`), and an empty history
(score `0`, pass rate `1`). -/
theorem flakiness_score_correct_witness :
    (0 ≤ TestHistory.flakinessScore
        ⟨"t", [⟨"t", true, 0, none, none⟩, ⟨"t", false, 1, none, none⟩,
               ⟨"t", true, 2, none, none⟩]⟩ ∧
      TestHistory.flakinessScore
        ⟨"t", [⟨"t", true, 0, none, none⟩, ⟨"t", false, 1, none, none⟩,
               ⟨"t", true, 2, none, none⟩]⟩ ≤ 1) ∧
    TestHistory.flakinessScore
      ⟨"t", [⟨"t", true, 0, none, none⟩, ⟨"t", true, 1, none, none⟩]⟩ = 0 ∧
    (TestHistory.flakinessScore ⟨"t", []⟩ = 0 ∧
      TestHistory.passRate ⟨"t", []⟩ = 1) :=
  ⟨(flakiness_score_correct _).2.1 (by norm_num),
   (flakiness_score_correct _).2.2.1 (by intro r₁ h₁ r₂ h₂; fin_cases h₁ <;> fin_cases h₂ <;> rfl),
   (flakiness_score_correct _).2.2.2 rfl⟩

/-! ## C5 — tuning-parameter range invariant -/

lemma lookup_setParam : ∀ (l : List (String × TuningParameter)) (k : String)
    (v : TuningParameter), (SelfOptimizer.setParam l k v).lookup k = some v
  | [], k, v => by simp [SelfOptimizer.setParam, List.lookup]
  | (a, b) :: rest, k, v => by
    by_cases hak : a = k
    · simp [SelfOptimizer.setParam, hak, List.lookup]
    · simp only [SelfOptimizer.setParam, if_neg hak, List.lookup]
      have hbe : (k == a) = false := beq_eq_false_iff_ne.mpr (fun hh => hak hh.symm)
      rw [hbe]
      exact lookup_setParam rest k v

/-- **C5 counterexample.**  `register_parameter("p", initial=100, min=0,
max=10)` leaves `current_value = 100`, violating
`range.min ≤ current_value ≤ range.max`: the initial value is stored
without clamping. -/
theorem register_parameter_unclamped_counterexample :
    (SelfOptimizer.registerParameter {} "p" 100 0 10 1 0).getParameter "p" =
      some { name := "p", currentValue := 100, range := ⟨0, 10, 1⟩
             history := [⟨100, 0⟩] } ∧
    ¬ ((100 : ℚ) ≤ (10 : ℚ)) :=
  ⟨rfl, by norm_num⟩

/-- **C5 amended.**  `adjust` always clamps the new value into
`[range.min, range.max]` (whenever the range is non-degenerate), so
states reached through `adjust` satisfy the invariant; but
`register_parameter` stores the initial value verbatim, so a parameter
registered with an out-of-range initial value violates it until the
first `adjust`. -/
theorem adjust_clamps_into_range (p : TuningParameter) (v : ℚ) (now : Nat)
    (hr : p.range.minValue ≤ p.range.maxValue) :
    (p.range.minValue ≤ (p.adjust v now).currentValue ∧
      (p.adjust v now).currentValue ≤ p.range.maxValue) ∧
    ∀ (o : SelfOptimizer) (name : String) (init lo hi st : ℚ) (t : Nat),
      (o.registerParameter name init lo hi st t).getParameter name =
        some (TuningParameter.mkInit name init ⟨lo, hi, st⟩ t) := by
  constructor
  · simp only [TuningParameter.adjust, ParameterRange.clamp]
    exact ⟨le_max_left _ _, max_le hr (min_le_left _ _)⟩
  · intro o name init lo hi st t
    simp only [SelfOptimizer.registerParameter, SelfOptimizer.getParameter]
    exact lookup_setParam _ _ _

/-- Witness for C5 (amended) at a concrete parameter and adjustment. -/
theorem adjust_clamps_into_range_witness :
    ((0 : ℚ) ≤ ((TuningParameter.mkInit "x" 5 ⟨0, 10, 1⟩ 0).adjust 42 3).currentValue ∧
      ((TuningParameter.mkInit "x" 5 ⟨0, 10, 1⟩ 0).adjust 42 3).currentValue ≤ 10) ∧
    ∀ (o : SelfOptimizer) (name : String) (init lo hi st : ℚ) (t : Nat),
      (o.registerParameter name init lo hi st t).getParameter name =
        some (TuningParameter.mkInit name init ⟨lo, hi, st⟩ t) :=
  adjust_clamps_into_range (TuningParameter.mkInit "x" 5 ⟨0, 10, 1⟩ 0) 42 3
    (by norm_num [TuningParameter.mkInit])

/-! ## C6 — error-sameness in `record_error` -/

lemma recordError_latch (s : LoopState) (e : String) :
    (s.recordError e).lastErrorHash = some e ∧
    (s.recordError e).consecutiveSameError =
      (if s.lastErrorHash = some e then s.consecutiveSameError + 1 else 1) := by
  simp only [LoopState.recordError, errorHashStr]
  split_ifs with h <;> simp [h]

/-- **C6 counterexample.**  Recording `"Error in foo.py line 3"` and then
`"Error in foo.py line 4"` — two error strings that differ only in a
line number — leaves `consecutive_same_error = 1`: the second recording
RESETS the counter instead of incrementing it to 2, because
`record_error` hashes the raw string and performs no normalization. -/
theorem record_error_line_number_counterexample :
    ((LoopState.recordError (LoopState.recordError {} "Error in foo.py line 3")
        "Error in foo.py line 4").consecutiveSameError) = 1 := by
  have h1 := recordError_latch ({} : LoopState) "Error in foo.py line 3"
  have h2 := recordError_latch (LoopState.recordError {} "Error in foo.py line 3")
    "Error in foo.py line 4"
  rw [h2.2, if_neg]
  rw [h1.1]
  simp

/-- **C6 amended.**  `record_error` decides "same error" by equality of
`str(hash(...))` of the RAW error string: recording the identical string
again increments `consecutive_same_error`, while recording ANY different
string — even one differing only in a line number, path, integer or
quoted literal — resets the counter to 1. -/
theorem record_error_same_iff_raw_equal (s : LoopState) (e₁ e₂ : String)
    (hne : e₁ ≠ e₂) :
    ((s.recordError e₁).recordError e₂).consecutiveSameError = 1 ∧
    ((s.recordError e₁).recordError e₁).consecutiveSameError =
      (s.recordError e₁).consecutiveSameError + 1 := by
  have h1 := recordError_latch s e₁
  have h2 := recordError_latch (s.recordError e₁) e₂
  have h3 := recordError_latch (s.recordError e₁) e₁
  constructor
  · rw [h2.2, if_neg]
    rw [h1.1]
    simp [hne]
  · rw [h3.2, if_pos (by rw [h1.1])]

/-- Witness for C6 (amended) at two concrete strings differing only in a
line number. -/
theorem record_error_same_iff_raw_equal_witness :
    ((LoopState.recordError (LoopState.recordError {} "x.py line 1 boom")
        "x.py line 2 boom").consecutiveSameError = 1) ∧
    ((LoopState.recordError (LoopState.recordError {} "x.py line 1 boom")
        "x.py line 1 boom").consecutiveSameError =
      (LoopState.recordError {} "x.py line 1 boom").consecutiveSameError + 1) :=
  record_error_same_iff_raw_equal {} "x.py line 1 boom" "x.py line 2 boom"
    (by decide)

/-! ## C4 — dependency-gated dispatch -/

/-- **C4 counterexample.**  In the two-agent scenario, after t1 completes
(on agent-0) the next `assign_tasks()` hands t2 to agent-0 again — the
first IDLE agent in iteration order — NOT to the second agent, which
stays IDLE with no task. -/
theorem second_assign_goes_to_first_agent :
    (c4AfterSecondAssign.agents.get? 1).map
        (fun a => (a.status, a.currentTask.map (·.taskId))) =
      some (AgentStatus.idle, none) ∧
    (c4AfterSecondAssign.agents.get? 0).map
        (fun a => (a.status, a.currentTask.map (·.taskId))) =
      some (AgentStatus.busy, some "t2") := by decide

/-- **C4 amended.**  Submitting t2 (deps `["t1"]`) then t1 with 2 agents:
the first `assign_tasks()` leaves exactly agent-0 BUSY with t1, agent-1
IDLE, and t2 BLOCKED; completing t1 successfully and calling
`assign_tasks()` again makes agent-0 (the first idle agent in iteration
order, which has just gone IDLE) BUSY with t2, while the second agent
remains IDLE. -/
theorem dependency_gated_dispatch_trace :
    (c4AfterFirstAssign.agents.map
        (fun a => (a.status, a.currentTask.map (·.taskId))) =
      [(AgentStatus.busy, some "t1"), (AgentStatus.idle, none)]) ∧
    (c4AfterFirstAssign.blockedTasks.map (fun t => (t.taskId, t.status)) =
      [("t2", TaskStatus.blocked)]) ∧
    (c4AfterSecondAssign.agents.map
        (fun a => (a.status, a.currentTask.map (·.taskId))) =
      [(AgentStatus.busy, some "t2"), (AgentStatus.idle, none)]) ∧
    c4AfterSecondAssign.blockedTasks = [] := by decide

/-! ## C7 — executor save/load round trip -/

lemma load_queue_fold (now : Nat) :
    ∀ (l : List TaskSnap) (e : Executor),
      (l.foldl (fun acc s =>
          { acc with queue := acc.queue.enqueue (s.toTask now) }) e) =
        { e with queue :=
            { heap := e.queue.heap ++ l.map (fun s =>
                { s.toTask now with status := TaskStatus.queued })
              taskMap := (l.foldl (fun acc s =>
                { acc with queue := acc.queue.enqueue (s.toTask now) })
                  e).queue.taskMap } }
  | [], e => by simp
  | s :: rest, e => by
    rw [List.foldl_cons, load_queue_fold now rest]
    simp [WorkQueue.enqueue]

lemma load_blocked_fold (now : Nat) :
    ∀ (l : List TaskSnap) (e : Executor),
      (l.foldl (fun acc s =>
          { acc with blockedTasks := acc.blockedTasks ++ [s.toTask now] }) e) =
        { e with blockedTasks := e.blockedTasks ++ l.map (fun s => s.toTask now) }
  | [], e => by simp
  | s :: rest, e => by
    rw [List.foldl_cons, load_blocked_fold now rest]
    simp

/-- **C7 counterexample.**  A one-agent executor that has completed one
task has `completed_count = 1`, but after `load(save(x))` the agent's
count is 0: `load` rebuilds fresh agents and never reads the saved
agent statuses or counts (nor the tasks' `created_at`, which `save`
does not even serialize). -/
theorem save_load_drops_completed_count :
    c7Exec.agents.map (·.completedCount) = [1] ∧
    c7Exec.completedIds = ["t1"] ∧
    (Executor.load c7Exec.save 100).agents.map (·.completedCount) = [0] ∧
    (Executor.load c7Exec.save 100).completedIds = ["t1"] := by decide

/-- `load` rebuilds the executor from the snapshot: fresh agents, the
snapshot's completedIds, the queue re-enqueued (status re-stamped
QUEUED, fresh created_at), the blocked list re-appended. -/
lemma load_fields (snap : ExecutorSnapshot) (now : Nat) :
    (Executor.load snap now).agents = (Executor.init snap.numAgents).agents ∧
    (Executor.load snap now).completedIds = snap.completedIds ∧
    (Executor.load snap now).completed = [] ∧
    (Executor.load snap now).queue.heap = snap.queue.map (fun s =>
      { s.toTask now with status := TaskStatus.queued }) ∧
    (Executor.load snap now).blockedTasks = snap.blocked.map (fun s =>
      s.toTask now) := by
  unfold Executor.load
  dsimp only
  rw [load_queue_fold, load_blocked_fold]
  simp [Executor.init]

/-- **C7 amended.**  `load(save(x))` preserves the number of agents, the
completed-id set, and the queued and blocked tasks up to their
serialized fields (id, name, priority, status, dependencies, metadata —
queue entries are re-stamped QUEUED by `enqueue`); it does NOT preserve
agent statuses or completed counts (agents come back fresh), tasks'
`created_at` (never serialized; fresh timestamps are assigned), or the
completed-task list. -/
theorem save_load_roundtrip_fields (e : Executor) (now : Nat) :
    (Executor.load e.save now).agents =
      (Executor.init e.agents.length).agents ∧
    (Executor.load e.save now).completedIds = e.completedIds ∧
    (Executor.load e.save now).queue.heap.map Task.toSnap =
      e.queue.heap.map (fun t =>
        { Task.toSnap t with status := TaskStatus.queued }) ∧
    (Executor.load e.save now).blockedTasks.map Task.toSnap =
      e.blockedTasks.map Task.toSnap ∧
    (Executor.load e.save now).completed = [] := by
  obtain ⟨ha, hc, hdone, hq, hb⟩ := load_fields e.save now
  refine ⟨?_, ?_, ?_, ?_, hdone⟩
  · rw [ha]; rfl
  · rw [hc]; rfl
  · rw [hq]
    dsimp only [Executor.save]
    rw [List.map_map, List.map_map]
    rfl
  · rw [hb]
    dsimp only [Executor.save]
    rw [List.map_map, List.map_map]
    rfl

/-! ## C1 — dependency graph: dict/set bookkeeping lemmas -/

lemma nodup_append_singleton {α : Type} {l : List α} {k : α} (h : l.Nodup)
    (hk : k ∉ l) : (l ++ [k]).Nodup :=
  (List.perm_append_singleton k l).nodup_iff.mpr (List.nodup_cons.mpr ⟨hk, h⟩)

section DictLemmas

variable {β : Type}

lemma dictGet_dictSet (m : List (String × β)) (k : String) (v : β) (q : String) :
    dictGet q (dictSet m k v) = if q = k then some v else dictGet q m := by
  induction m with
  | nil =>
    by_cases hqk : q = k
    · subst hqk; simp [dictSet, dictGet]
    · have hkq : ¬ k = q := fun h => hqk h.symm
      simp [dictSet, dictGet, hqk, hkq]
  | cons p rest ih =>
    obtain ⟨a, b⟩ := p
    by_cases hak : a = k
    · subst hak
      by_cases hqa : q = a
      · subst hqa; simp [dictSet, dictGet]
      · have hne : ¬ a = q := fun h => hqa h.symm
        simp [dictSet, dictGet, hqa, hne]
    · by_cases hqa : q = a
      · subst hqa
        simp [dictSet, dictGet, hak, fun h : q = k => hak h]
      · have hne : ¬ a = q := fun h => hqa h.symm
        simp [dictSet, dictGet, hak, hqa, hne, ih]

lemma dictGet_append : ∀ (m l : List (String × β)) (q : String),
    dictGet q (m ++ l) =
      match dictGet q m with
      | some v => some v
      | none => dictGet q l
  | [], l, q => by simp [dictGet]
  | (a, b) :: rest, l, q => by
    by_cases hqa : a = q
    · simp [dictGet, hqa]
    · simp only [List.cons_append, dictGet, if_neg hqa]
      exact dictGet_append rest l q

lemma dictGet_none_iff (m : List (String × β)) (q : String) :
    dictGet q m = none ↔ q ∉ m.map Prod.fst := by
  induction m with
  | nil => simp [dictGet]
  | cons p rest ih =>
    obtain ⟨a, b⟩ := p
    by_cases hqa : a = q
    · subst hqa
      simp [dictGet]
    · simp only [dictGet, if_neg hqa, List.map_cons, List.mem_cons, ih]
      constructor
      · intro h
        rintro (rfl | hm)
        · exact hqa rfl
        · exact h hm
      · intro h hm
        exact h (Or.inr hm)

lemma dictGet_mem {m : List (String × β)} {q : String} {v : β}
    (h : dictGet q m = some v) : (q, v) ∈ m := by
  induction m with
  | nil => cases h
  | cons p rest ih =>
    obtain ⟨a, b⟩ := p
    simp only [dictGet] at h
    by_cases hqa : a = q
    · rw [if_pos hqa] at h
      obtain rfl : b = v := by simpa using h
      subst hqa
      exact List.mem_cons_self _ _
    · rw [if_neg hqa] at h
      exact List.mem_cons_of_mem _ (ih h)

lemma dictGet_of_mem_nodup {m : List (String × β)} {q : String} {v : β}
    (hn : (m.map Prod.fst).Nodup) (h : (q, v) ∈ m) : dictGet q m = some v := by
  induction m with
  | nil => cases h
  | cons p rest ih =>
    obtain ⟨a, b⟩ := p
    simp only [List.map_cons, List.nodup_cons] at hn
    rcases List.mem_cons.mp h with heq | hmem
    · obtain ⟨rfl, rfl⟩ := Prod.mk.inj heq
      simp [dictGet]
    · have hne : a ≠ q := by
        intro hcontra
        subst hcontra
        exact hn.1 (List.mem_map.mpr ⟨(a, v), hmem, rfl⟩)
      simp only [dictGet, if_neg hne]
      exact ih hn.2 hmem

lemma mem_dictSet {m : List (String × β)} {k : String} {v : β} {p : String × β}
    (h : p ∈ dictSet m k v) : p ∈ m ∨ p = (k, v) := by
  induction m with
  | nil => simpa [dictSet] using h
  | cons q rest ih =>
    obtain ⟨a, b⟩ := q
    simp only [dictSet] at h
    by_cases hak : a = k
    · rw [if_pos hak] at h
      rcases List.mem_cons.mp h with rfl | hmem
      · subst hak; exact Or.inr rfl
      · exact Or.inl (List.mem_cons_of_mem _ hmem)
    · rw [if_neg hak] at h
      rcases List.mem_cons.mp h with rfl | hmem
      · exact Or.inl (List.mem_cons_self _ _)
      · rcases ih hmem with hm | hp
        · exact Or.inl (List.mem_cons_of_mem _ hm)
        · exact Or.inr hp

lemma keys_dictSet : ∀ (m : List (String × β)) (k : String) (v : β),
    (dictSet m k v).map Prod.fst =
      if k ∈ m.map Prod.fst then m.map Prod.fst else m.map Prod.fst ++ [k]
  | [], k, v => by simp [dictSet]
  | (a, b) :: rest, k, v => by
    by_cases hak : a = k
    · subst hak
      simp [dictSet]
    · have hka : ¬ k = a := fun h => hak h.symm
      simp only [dictSet, if_neg hak, List.map_cons, keys_dictSet rest k v,
        List.mem_cons]
      by_cases hk : k ∈ rest.map Prod.fst
      · rw [if_pos hk, if_pos (Or.inr hk)]
      · rw [if_neg hk, if_neg (by rintro (h | h) <;> [exact hka h; exact hk h]),
          List.cons_append]

lemma mem_keys_dictSet (m : List (String × β)) (k : String) (v : β) (q : String) :
    q ∈ (dictSet m k v).map Prod.fst ↔ q ∈ m.map Prod.fst ∨ q = k := by
  rw [keys_dictSet]
  by_cases hk : k ∈ m.map Prod.fst
  · rw [if_pos hk]
    constructor
    · exact Or.inl
    · rintro (h | rfl)
      · exact h
      · exact hk
  · rw [if_neg hk]
    simp

lemma nodup_keys_dictSet (m : List (String × β)) (k : String) (v : β)
    (h : (m.map Prod.fst).Nodup) : ((dictSet m k v).map Prod.fst).Nodup := by
  rw [keys_dictSet]
  by_cases hk : k ∈ m.map Prod.fst
  · rwa [if_pos hk]
  · rw [if_neg hk]
    exact nodup_append_singleton h hk

end DictLemmas

lemma mem_setAdd (l : List String) (v x : String) :
    x ∈ setAdd l v ↔ x ∈ l ∨ x = v := by
  simp only [setAdd]
  by_cases hv : v ∈ l
  · rw [if_pos hv]
    constructor
    · exact Or.inl
    · rintro (h | rfl)
      · exact h
      · exact hv
  · rw [if_neg hv]
    simp

lemma setAdd_nodup {l : List String} (v : String) (h : l.Nodup) :
    (setAdd l v).Nodup := by
  simp only [setAdd]
  by_cases hv : v ∈ l
  · rwa [if_pos hv]
  · rw [if_neg hv]
    exact nodup_append_singleton h hv

lemma dictGet_setMapAdd (m : List (String × List String)) (k v q : String) :
    dictGet q (setMapAdd m k v) =
      if q = k then some (setAdd ((dictGet k m).getD []) v)
      else dictGet q m := by
  simp only [setMapAdd]
  rcases h : dictGet k m with _ | s <;> simp only [h]
  · rw [dictGet_append]
    by_cases hqk : q = k
    · subst hqk
      rw [h, if_pos rfl]
      simp [dictGet, setAdd]
    · rcases hq : dictGet q m with _ | t
      · rw [if_neg hqk]
        simp only [dictGet]
        rw [if_neg (fun hh : k = q => hqk hh.symm)]
      · rw [if_neg hqk]
  · rw [dictGet_dictSet]
    by_cases hqk : q = k
    · rw [if_pos hqk, if_pos hqk]
      rfl
    · rw [if_neg hqk, if_neg hqk]

lemma keys_setMapAdd_sub (m : List (String × List String)) (k v q : String)
    (h : q ∈ (setMapAdd m k v).map Prod.fst) :
    q ∈ m.map Prod.fst ∨ q = k := by
  simp only [setMapAdd] at h
  rcases hk : dictGet k m with _ | s <;> simp only [hk] at h
  · simp only [List.map_append, List.mem_append] at h
    rcases h with h | h
    · exact Or.inl h
    · exact Or.inr (by simpa using h)
  · exact (mem_keys_dictSet m k _ q).mp h

lemma nodup_keys_setMapAdd (m : List (String × List String)) (k v : String)
    (h : (m.map Prod.fst).Nodup) :
    ((setMapAdd m k v).map Prod.fst).Nodup := by
  simp only [setMapAdd]
  rcases hk : dictGet k m with _ | s <;> simp only [hk]
  · have hkn : k ∉ m.map Prod.fst := (dictGet_none_iff m k).mp hk
    rw [List.map_append]
    exact nodup_append_singleton h (by simpa using hkn)
  · exact nodup_keys_dictSet m k _ h

/-! ## C1 — graph construction well-formedness -/

namespace DepGraph

lemma mem_foldl_setAdd : ∀ (deps l : List String) (x : String),
    x ∈ deps.foldl setAdd l ↔ x ∈ l ∨ x ∈ deps
  | [], l, x => by simp
  | d :: deps, l, x => by
    rw [List.foldl_cons, mem_foldl_setAdd deps _ x, mem_setAdd]
    simp only [List.mem_cons]
    tauto

lemma nodup_foldl_setAdd : ∀ (deps l : List String), l.Nodup →
    (deps.foldl setAdd l).Nodup
  | [], l, h => h
  | d :: deps, l, h =>
    nodup_foldl_setAdd deps _ (setAdd_nodup d h)

/-- One step of the dependency fold inside `add_feature`, on the edge
map. -/
lemma edgesOf_step (g : DepGraph) (a dep q : String) :
    edgesOf { g with edges := setMapAdd g.edges a dep
                     revEdges := setMapAdd g.revEdges dep a } q =
      if q = a then setAdd (edgesOf g a) dep else edgesOf g q := by
  simp only [edgesOf, dictGet_setMapAdd]
  by_cases hqa : q = a
  · rw [if_pos hqa, if_pos hqa]
    rfl
  · rw [if_neg hqa, if_neg hqa]

/-- One step of the dependency fold, on the reverse-edge map. -/
lemma revEdgesOf_step (g : DepGraph) (a dep q : String) :
    revEdgesOf { g with edges := setMapAdd g.edges a dep
                        revEdges := setMapAdd g.revEdges dep a } q =
      if q = dep then setAdd (revEdgesOf g dep) a else revEdgesOf g q := by
  simp only [revEdgesOf, dictGet_setMapAdd]
  by_cases hqd : q = dep
  · rw [if_pos hqd, if_pos hqd]
    rfl
  · rw [if_neg hqd, if_neg hqd]

lemma features_step (g : DepGraph) (a dep : String) :
    ({ g with edges := setMapAdd g.edges a dep
              revEdges := setMapAdd g.revEdges dep a } : DepGraph).features =
      g.features := rfl

/-- The dependency fold of `add_feature` changes `_features` not at all
and `_edges` only at the feature's own key. -/
lemma depsFold_spec (a : String) :
    ∀ (deps : List String) (g : DepGraph),
      (deps.foldl (fun g dep =>
        { g with edges := setMapAdd g.edges a dep
                 revEdges := setMapAdd g.revEdges dep a }) g).features =
          g.features ∧
      (∀ q, edgesOf (deps.foldl (fun g dep =>
          { g with edges := setMapAdd g.edges a dep
                   revEdges := setMapAdd g.revEdges dep a }) g) q =
        if q = a then deps.foldl setAdd (edgesOf g a) else edgesOf g q) ∧
      (∀ q x, x ∈ revEdgesOf (deps.foldl (fun g dep =>
          { g with edges := setMapAdd g.edges a dep
                   revEdges := setMapAdd g.revEdges dep a }) g) q ↔
        x ∈ revEdgesOf g q ∨ (x = a ∧ q ∈ deps)) ∧
      ((∀ q, (revEdgesOf g q).Nodup) → ∀ q, (revEdgesOf (deps.foldl (fun g dep =>
          { g with edges := setMapAdd g.edges a dep
                   revEdges := setMapAdd g.revEdges dep a }) g) q).Nodup) ∧
      (∀ q, q ∈ ((deps.foldl (fun g dep =>
          { g with edges := setMapAdd g.edges a dep
                   revEdges := setMapAdd g.revEdges dep a }) g).edges.map
            Prod.fst) →
        q ∈ (g.edges.map Prod.fst) ∨ q = a) ∧
      ((g.edges.map Prod.fst).Nodup → ((deps.foldl (fun g dep =>
          { g with edges := setMapAdd g.edges a dep
                   revEdges := setMapAdd g.revEdges dep a }) g).edges.map
            Prod.fst).Nodup)
  | [], g => by
    refine ⟨rfl, fun q => ?_, fun q x => ?_, fun h q => h q, fun q h => Or.inl h,
      fun h => h⟩
    · by_cases hqa : q = a
      · subst hqa; simp
      · simp [hqa]
    · simp
  | dep :: deps, g => by
    rw [List.foldl_cons]
    obtain ⟨ih1, ih2, ih3, ih4, ih5, ih6⟩ := depsFold_spec a deps
      { g with edges := setMapAdd g.edges a dep
               revEdges := setMapAdd g.revEdges dep a }
    refine ⟨ih1, fun q => ?_, fun q x => ?_, fun h q => ?_, fun q h => ?_,
      fun h => ?_⟩
    · by_cases hqa : q = a
      · rw [ih2 q, if_pos hqa, hqa, edgesOf_step, if_pos rfl, if_pos rfl,
          List.foldl_cons]
      · rw [ih2 q, if_neg hqa, edgesOf_step, if_neg hqa, if_neg hqa]
    · rw [ih3 q x, revEdgesOf_step]
      by_cases hqd : q = dep
      · subst hqd
        rw [if_pos rfl, mem_setAdd]
        simp only [List.mem_cons]
        tauto
      · rw [if_neg hqd]
        simp only [List.mem_cons]
        constructor
        · rintro (hm | ⟨rfl, hq⟩)
          · exact Or.inl hm
          · exact Or.inr ⟨rfl, Or.inr hq⟩
        · rintro (hm | ⟨rfl, rfl | hq⟩)
          · exact Or.inl hm
          · exact absurd rfl hqd
          · exact Or.inr ⟨rfl, hq⟩
    · refine ih4 (fun q' => ?_) q
      rw [revEdgesOf_step]
      by_cases hqd : q' = dep
      · rw [if_pos hqd]
        exact setAdd_nodup a (h dep)
      · rw [if_neg hqd]
        exact h q'
    · rcases ih5 q h with hm | rfl
      · exact keys_setMapAdd_sub g.edges a dep q hm
      · exact Or.inr rfl
    · exact ih6 (nodup_keys_setMapAdd g.edges a dep h)

/-- Edge membership after `add_feature`: either an old edge, or the new
feature's id pointing at one of its dependencies. -/
lemma edge_addFeature_iff (g : DepGraph) (f : Feature) (u v : String) :
    Edge (addFeature g f) u v ↔
      Edge g u v ∨ (u = f.id ∧ v ∈ f.dependencies) := by
  obtain ⟨_, h2, _, _, _, _⟩ := depsFold_spec f.id f.dependencies
    { g with features := dictSet g.features f.id f }
  show v ∈ edgesOf _ u ↔ _
  rw [show (addFeature g f) = (f.dependencies.foldl (fun g dep =>
      { g with edges := setMapAdd g.edges f.id dep
               revEdges := setMapAdd g.revEdges dep f.id })
      { g with features := dictSet g.features f.id f }) from rfl]
  rw [h2 u]
  by_cases hua : u = f.id
  · rw [if_pos hua, mem_foldl_setAdd]
    subst hua
    constructor
    · rintro (hm | hm)
      · exact Or.inl hm
      · exact Or.inr ⟨rfl, hm⟩
    · rintro (hm | ⟨_, hm⟩)
      · exact Or.inl hm
      · exact Or.inr hm
  · rw [if_neg hua]
    constructor
    · exact Or.inl
    · rintro (hm | ⟨rfl, _⟩)
      · exact hm
      · exact absurd rfl hua

lemma nodes_addFeature (g : DepGraph) (f : Feature) (q : String) :
    q ∈ nodes (addFeature g f) ↔ q ∈ nodes g ∨ q = f.id := by
  have hfeat : (addFeature g f).features = dictSet g.features f.id f := by
    obtain ⟨h1, _, _, _, _, _⟩ := depsFold_spec f.id f.dependencies
      { g with features := dictSet g.features f.id f }
    exact h1
  rw [show nodes (addFeature g f) = (addFeature g f).features.map Prod.fst
    from rfl, hfeat]
  exact mem_keys_dictSet g.features f.id f q

/-- `add_feature` preserves structural well-formedness. -/
lemma wf_addFeature {g : DepGraph} (hwf : WF g) (f : Feature) :
    WF (addFeature g f) := by
  obtain ⟨h1, h2, h3, h4, h5, h6⟩ := depsFold_spec f.id f.dependencies
    { g with features := dictSet g.features f.id f }
  have hg : addFeature g f = (f.dependencies.foldl (fun g dep =>
      { g with edges := setMapAdd g.edges f.id dep
               revEdges := setMapAdd g.revEdges dep f.id })
      { g with features := dictSet g.features f.id f }) := rfl
  constructor
  · show ((addFeature g f).features.map Prod.fst).Nodup
    rw [hg, h1]
    exact nodup_keys_dictSet g.features f.id f hwf.nodesNodup
  · rw [hg]
    exact h6 hwf.edgesKeysNodup
  · intro k
    rw [hg, h2 k]
    by_cases hka : k = f.id
    · rw [if_pos hka]
      exact nodup_foldl_setAdd _ _ (hwf.edgesNodup f.id)
    · rw [if_neg hka]
      exact hwf.edgesNodup k
  · intro k
    rw [hg]
    exact h4 hwf.revNodup k
  · intro a b
    have h3' : a ∈ revEdgesOf (addFeature g f) b ↔
        a ∈ revEdgesOf g b ∨ (a = f.id ∧ b ∈ f.dependencies) := h3 b a
    have hE : Edge (addFeature g f) a b ↔
        Edge g a b ∨ (a = f.id ∧ b ∈ f.dependencies) := edge_addFeature_iff g f a b
    have ht := hwf.transpose a b
    constructor
    · intro hmem
      rcases hE.mp hmem with hold | hnew
      · exact h3'.mpr (Or.inl (ht.mp hold))
      · exact h3'.mpr (Or.inr hnew)
    · intro hmem
      rcases h3'.mp hmem with hold | hnew
      · exact hE.mpr (Or.inl (ht.mpr hold))
      · exact hE.mpr (Or.inr hnew)
  · intro a b hedge
    rcases (edge_addFeature_iff g f a b).mp hedge with hold | ⟨rfl, _⟩
    · exact (nodes_addFeature g f a).mpr (Or.inl (hwf.edgeSrcFeature a b hold))
    · exact (nodes_addFeature g f f.id).mpr (Or.inr rfl)
  · intro p hp
    rw [hg, h1] at hp
    rcases mem_dictSet hp with hold | rfl
    · exact hwf.featureKey p hold
    · rfl
  · intro p hp d hd
    rw [hg, h1] at hp
    have hmem : Edge (addFeature g f) p.1 d → d ∈ edgesOf (addFeature g f) p.1 :=
      fun h => h
    rcases mem_dictSet hp with hold | rfl
    · exact hmem ((edge_addFeature_iff g f p.1 d).mpr
        (Or.inl (hwf.depsRecorded p hold d hd)))
    · exact hmem ((edge_addFeature_iff g f f.id d).mpr (Or.inr ⟨rfl, hd⟩))

lemma wf_empty : WF ({} : DepGraph) := by
  refine ⟨?_, ?_, ?_, ?_, ?_, ?_, ?_, ?_⟩
  · simp [nodes]
  · simp
  · intro k; simp [edgesOf, dictGet]
  · intro k; simp [revEdgesOf, dictGet]
  · intro a b; simp [edgesOf, revEdgesOf, dictGet]
  · intro a b h; exact absurd h (by simp [Edge, edgesOf, dictGet])
  · intro p hp; cases hp
  · intro p hp; cases hp

lemma wf_foldl : ∀ (fs : List Feature) {g : DepGraph}, WF g →
    WF (fs.foldl addFeature g)
  | [], g, h => h
  | f :: fs, g, h => wf_foldl fs (wf_addFeature h f)

/-- Every graph built through `add_feature` is well-formed. -/
lemma wf_ofList (fs : List Feature) : WF (ofList fs) :=
  wf_foldl fs wf_empty

lemma mem_univ_of_node {g : DepGraph} {u : String} (h : u ∈ nodes g) :
    u ∈ universeNodes g := List.mem_append_left _ h

lemma mem_univ_of_edge {g : DepGraph} {u v : String} (h : Edge g u v) :
    v ∈ universeNodes g := by
  have hv : v ∈ edgesOf g u := h
  simp only [edgesOf] at hv
  rcases hget : dictGet u g.edges with _ | l
  · rw [hget] at hv
    cases hv
  · rw [hget] at hv
    refine List.mem_append_right _ (List.mem_flatMap.mpr ⟨(u, l), ?_, hv⟩)
    exact dictGet_mem hget

/-! ### DFS cycle-detection correctness: `find_cycles = [] → no cycle` -/

/-- Nodes reachable from a member of a closed set stay in the set. -/
lemma reach_closed {g : DepGraph} {B : String → Prop} (hC : ClosedUnder g B)
    {w x : String} (hw : B w) (h : Relation.ReflTransGen (Edge g) w x) : B x := by
  induction h with
  | refl => exact hw
  | tail _ e ih => exact hC _ ih _ e

lemma black_enter {s : DfsState} {u : String} (hu : u ∉ s.visited) (v : String) :
    Black (dfsEnter s u) v ↔ Black s v := by
  simp only [Black, dfsEnter, List.mem_insert_iff]
  by_cases hvu : v = u
  · subst hvu
    simp [hu]
  · simp [hvu]

lemma dfsPre_enter {g : DepGraph} {s : DfsState} {u : String}
    (hpre : DfsPre g s) (hu : u ∉ s.visited) : DfsPre g (dfsEnter s u) := by
  obtain ⟨hstack, hclosed, hacyc⟩ := hpre
  refine ⟨?_, ?_, ?_⟩
  · intro v hv
    simp only [dfsEnter, List.mem_insert_iff] at hv ⊢
    rcases hv with rfl | hv
    · exact Or.inl rfl
    · exact Or.inr (hstack v hv)
  · intro v hv x hx
    exact (black_enter hu x).mpr (hclosed v ((black_enter hu v).mp hv) x hx)
  · intro v hv
    exact hacyc v ((black_enter hu v).mp hv)

lemma unvisitedCard_mono {g : DepGraph} {s s' : DfsState}
    (h : ∀ v ∈ s.visited, v ∈ s'.visited) :
    unvisitedCard g s' ≤ unvisitedCard g s := by
  apply Finset.card_le_card
  intro v hv
  simp only [unvisitedCard, Finset.mem_filter] at hv ⊢
  exact ⟨hv.1, fun hc => hv.2 (h v hc)⟩

lemma unvisitedCard_enter {g : DepGraph} {s : DfsState} {u : String}
    (hu : u ∉ s.visited) (hmem : u ∈ univFinset g) :
    unvisitedCard g (dfsEnter s u) < unvisitedCard g s := by
  have hsub : (univFinset g).filter (fun v => v ∉ (dfsEnter s u).visited) =
      ((univFinset g).filter (fun v => v ∉ s.visited)).erase u := by
    ext v
    simp only [Finset.mem_filter, Finset.mem_erase, dfsEnter,
      List.mem_insert_iff]
    constructor
    · rintro ⟨hv, hnv⟩
      exact ⟨fun hvu => hnv (Or.inl hvu), hv, fun hc => hnv (Or.inr hc)⟩
    · rintro ⟨hne, hv, hnv⟩
      exact ⟨hv, fun hc => hc.elim hne hnv⟩
  rw [unvisitedCard, hsub]
  apply Finset.card_erase_lt_of_mem
  simp only [Finset.mem_filter]
  exact ⟨hmem, hu⟩

lemma edgesOf_sub_univ {g : DepGraph} {u : String} :
    ∀ x ∈ edgesOf g u, x ∈ univFinset g := fun x hx =>
  List.mem_toFinset.mpr (mem_univ_of_edge (hx : Edge g u x))

/-- Cycle-record monotonicity of the neighbor loop, given it for the
inner `dfs` at the same fuel. -/
lemma dfsNeighbors_cycles_mono (g : DepGraph) (fuel : Nat)
    (hv : ∀ s u, s.cycles.length ≤ (dfsVisit g fuel s u).1.cycles.length) :
    ∀ (ns : List String) (s : DfsState),
      s.cycles.length ≤ (dfsNeighbors g fuel ns s).1.cycles.length
  | [], s => by simp [dfsNeighbors]
  | n :: ns, s => by
    simp only [dfsNeighbors]
    by_cases hn : n ∉ s.visited
    · rw [if_pos hn]
      rcases hvis : dfsVisit g fuel s n with ⟨s', b⟩
      have hle : s.cycles.length ≤ s'.cycles.length := by
        have := hv s n
        rw [hvis] at this
        exact this
      cases b
      · exact Nat.le_trans hle (dfsNeighbors_cycles_mono g fuel hv ns s')
      · exact hle
    · rw [if_neg hn]
      by_cases hr : n ∈ s.recStack
      · rw [if_pos hr]
        simp [appendCycle]
      · rw [if_neg hr]
        exact dfsNeighbors_cycles_mono g fuel hv ns s

/-- Cycle-record monotonicity of `dfs`. -/
lemma dfsVisit_cycles_mono (g : DepGraph) :
    ∀ (fuel : Nat) (s : DfsState) (u : String),
      s.cycles.length ≤ (dfsVisit g fuel s u).1.cycles.length := by
  intro fuel
  induction fuel with
  | zero => intro s u; simp [dfsVisit]
  | succ fuel ih =>
    intro s u
    simp only [dfsVisit]
    rcases hns : dfsNeighbors g fuel (edgesOf g u) (dfsEnter s u) with ⟨s2, b⟩
    have hmono : s.cycles.length ≤ s2.cycles.length := by
      have := dfsNeighbors_cycles_mono g fuel ih (edgesOf g u) (dfsEnter s u)
      rw [hns] at this
      exact this
    cases b
    · exact hmono
    · exact hmono

/-- The neighbor-loop specification, given the `dfs` specification at the
same fuel. -/
lemma dfsNeighbors_spec (g : DepGraph) (fuel : Nat)
    (hv : ∀ (s : DfsState) (u : String), DfsPre g s → u ∉ s.visited →
      u ∈ univFinset g → unvisitedCard g s < fuel →
      ((dfsVisit g fuel s u).2 = false →
        DfsPost g s (dfsVisit g fuel s u).1 u) ∧
      ((dfsVisit g fuel s u).2 = true →
        (dfsVisit g fuel s u).1.cycles ≠ [])) :
    ∀ (ns : List String) (s : DfsState), DfsPre g s →
      (∀ x ∈ ns, x ∈ univFinset g) → unvisitedCard g s < fuel →
      ((dfsNeighbors g fuel ns s).2 = false →
        NPost g s (dfsNeighbors g fuel ns s).1 ns) ∧
      ((dfsNeighbors g fuel ns s).2 = true →
        (dfsNeighbors g fuel ns s).1.cycles ≠ [])
  | [], s, hpre, huniv, hcard => by
    simp only [dfsNeighbors]
    constructor
    · intro _
      exact ⟨rfl, rfl, rfl, fun v hv' => hv', fun v hb => hb, hpre,
        fun x hx => absurd hx (List.not_mem_nil x)⟩
    · intro hcontra
      cases hcontra
  | n :: ns, s, hpre, huniv, hcard => by
    simp only [dfsNeighbors]
    by_cases hn : n ∉ s.visited
    · rw [if_pos hn]
      rcases hvis : dfsVisit g fuel s n with ⟨s', b⟩
      have hspec := hv s n hpre hn (huniv n (List.mem_cons_self _ _)) hcard
      rw [hvis] at hspec
      cases b
      · -- inner dfs returned False
        obtain ⟨hrs, hpath, hcyc, hvismono, hnvis, hblackmono, hblackn, hpre'⟩ :=
          hspec.1 rfl
        have hcard' : unvisitedCard g s' < fuel :=
          lt_of_le_of_lt (unvisitedCard_mono hvismono) hcard
        have hrec := dfsNeighbors_spec g fuel hv ns s' hpre'
          (fun x hx => huniv x (List.mem_cons_of_mem _ hx)) hcard'
        constructor
        · intro hfalse
          obtain ⟨hrs2, hpath2, hcyc2, hvis2, hblack2, hpre2, hall2⟩ :=
            hrec.1 hfalse
          refine ⟨hrs2.trans hrs, hpath2.trans hpath, hcyc2.trans hcyc,
            fun v hv' => hvis2 v (hvismono v hv'),
            fun v hb => hblack2 v (hblackmono v hb), hpre2, ?_⟩
          intro x hx
          rcases List.mem_cons.mp hx with rfl | hx'
          · exact hblack2 x hblackn
          · exact hall2 x hx'
        · exact hrec.2
      · -- inner dfs found a cycle; it propagates
        exact ⟨(fun hcontra => nomatch hcontra), fun _ => hspec.2 rfl⟩
    · rw [if_neg hn]
      push_neg at hn
      by_cases hr : n ∈ s.recStack
      · rw [if_pos hr]
        refine ⟨(fun hcontra => nomatch hcontra), fun _ => ?_⟩
        simp [appendCycle]
      · rw [if_neg hr]
        have hblackn : Black s n := ⟨hn, hr⟩
        have hrec := dfsNeighbors_spec g fuel hv ns s hpre
          (fun x hx => huniv x (List.mem_cons_of_mem _ hx)) hcard
        constructor
        · intro hfalse
          obtain ⟨hrs2, hpath2, hcyc2, hvis2, hblack2, hpre2, hall2⟩ :=
            hrec.1 hfalse
          refine ⟨hrs2, hpath2, hcyc2, hvis2, hblack2, hpre2, ?_⟩
          intro x hx
          rcases List.mem_cons.mp hx with rfl | hx'
          · exact hblack2 x hblackn
          · exact hall2 x hx'
        · exact hrec.2

/-- The `dfs` specification: under the fuel bound, a `False` return
restores the stack and extends the black region (which stays closed and
acyclic) by the argument node, and a `True` return has recorded a
cycle. -/
lemma dfsVisit_spec (g : DepGraph) :
    ∀ (fuel : Nat) (s : DfsState) (u : String), DfsPre g s →
      u ∉ s.visited → u ∈ univFinset g → unvisitedCard g s < fuel →
      ((dfsVisit g fuel s u).2 = false →
        DfsPost g s (dfsVisit g fuel s u).1 u) ∧
      ((dfsVisit g fuel s u).2 = true →
        (dfsVisit g fuel s u).1.cycles ≠ []) := by
  intro fuel
  induction fuel with
  | zero =>
    intro s u _ _ _ hcard
    exact absurd hcard (Nat.not_lt_zero _)
  | succ fuel ih =>
    intro s u hpre hu humem hcard
    have hpre1 : DfsPre g (dfsEnter s u) := dfsPre_enter hpre hu
    have hcard1 : unvisitedCard g (dfsEnter s u) < fuel := by
      have := unvisitedCard_enter hu humem
      omega
    have hns := dfsNeighbors_spec g fuel ih (edgesOf g u) (dfsEnter s u)
      hpre1 edgesOf_sub_univ hcard1
    simp only [dfsVisit]
    rcases hres : dfsNeighbors g fuel (edgesOf g u) (dfsEnter s u) with ⟨s2, b⟩
    rw [hres] at hns
    cases b
    · -- no cycle found among the neighbors
      obtain ⟨hrs, hpath, hcyc, hvismono, hblackmono, hpre2, hall⟩ := hns.1 rfl
      obtain ⟨hstack2, hclosed2, hacyc2⟩ := hpre2
      have hurs : u ∉ s.recStack := fun hc => hu (hpre.1 u hc)
      have hins : (dfsEnter s u).recStack = u :: s.recStack := by
        simp only [dfsEnter]
        exact List.insert_of_not_mem hurs
      have hrs2 : s2.recStack = u :: s.recStack := by rw [hrs, hins]
      have hexit_rs : (dfsExit s2 u).recStack = s.recStack := by
        simp only [dfsExit, hrs2]
        exact List.erase_cons_head u s.recStack
      have huvis2 : u ∈ s2.visited :=
        hvismono u (by simp [dfsEnter, List.mem_insert_iff])
      have hblack_to_exit : ∀ v, Black s2 v → Black (dfsExit s2 u) v := by
        intro v hb
        refine ⟨hb.1, ?_⟩
        rw [hexit_rs]
        intro hc
        exact hb.2 (by rw [hrs2]; exact List.mem_cons_of_mem _ hc)
      have hblack_exit_u : Black (dfsExit s2 u) u := by
        refine ⟨huvis2, ?_⟩
        rw [hexit_rs]
        exact hurs
      have hblack_exit_iff : ∀ v, Black (dfsExit s2 u) v ↔
          Black s2 v ∨ v = u := by
        intro v
        constructor
        · rintro ⟨hvv, hvr⟩
          by_cases hvu : v = u
          · exact Or.inr hvu
          · refine Or.inl ⟨hvv, ?_⟩
            rw [hrs2]
            rw [hexit_rs] at hvr
            intro hc
            rcases List.mem_cons.mp hc with h | h
            · exact hvu h
            · exact hvr h
        · rintro (hb | rfl)
          · exact hblack_to_exit v hb
          · exact hblack_exit_u
      have hsucc_black : ∀ x, Edge g u x → Black s2 x := fun x hx => hall x hx
      have hu_not_black2 : ¬ Black s2 u := by
        rintro ⟨_, hc⟩
        rw [hrs2] at hc
        exact hc (List.mem_cons_self _ _)
      constructor
      · intro _
        refine ⟨hexit_rs, ?_, ?_, ?_, ?_, ?_, ?_, ?_, ?_, ?_⟩
        · -- path restored
          show (dfsExit s2 u).path = s.path
          simp only [dfsExit]
          rw [hpath]
          simp only [dfsEnter]
          exact List.dropLast_concat
        · show (dfsExit s2 u).cycles = s.cycles
          simp only [dfsExit]
          rw [hcyc]
          rfl
        · intro v hvv
          exact hvismono v (by simp [dfsEnter, List.mem_insert_iff, hvv])
        · exact huvis2
        · intro v hb
          exact hblack_to_exit v
            (hblackmono v ((black_enter hu v).mpr hb))
        · exact hblack_exit_u
        · -- stack invariant of the exit state
          intro v hvr
          rw [hexit_rs] at hvr
          have : v ∈ s2.recStack := by
            rw [hrs2]
            exact List.mem_cons_of_mem _ hvr
          exact hstack2 v this
        · -- closed under successors
          intro v hb x hx
          rcases (hblack_exit_iff v).mp hb with hb2 | rfl
          · exact hblack_to_exit x (hclosed2 v hb2 x hx)
          · exact hblack_to_exit x (hsucc_black x hx)
        · -- acyclic
          intro v hb
          rcases (hblack_exit_iff v).mp hb with hb2 | rfl
          · exact hacyc2 v hb2
          · intro hcycle
            obtain ⟨w, hw, hwu⟩ := Relation.TransGen.head'_iff.mp hcycle
            have hwb : Black s2 w := hsucc_black w hw
            exact hu_not_black2 (reach_closed hclosed2 hwb hwu)
      · intro hcontra
        cases hcontra
    · -- a neighbor reported a cycle
      exact ⟨(fun hcontra => nomatch hcontra), fun _ => hns.2 rfl⟩

lemma dfsPre_empty (g : DepGraph) : DfsPre g ({} : DfsState) := by
  refine ⟨?_, ?_, ?_⟩
  · intro v hv
    cases hv
  · rintro v ⟨hv, _⟩ x _
    cases hv
  · rintro v ⟨hv, _⟩
    cases hv

lemma unvisitedCard_lt_dfsFuel (g : DepGraph) (s : DfsState) :
    unvisitedCard g s < dfsFuel g := by
  have h1 : unvisitedCard g s ≤ (univFinset g).card := Finset.card_filter_le _ _
  have h2 : (univFinset g).card ≤ (universeNodes g).length :=
    List.toFinset_card_le (l := universeNodes g)
  simp only [dfsFuel]
  omega

lemma findCycles_fold_cycles_mono (g : DepGraph) :
    ∀ (l : List String) (s : DfsState),
      s.cycles.length ≤ (l.foldl (fun s node =>
        if node ∉ s.visited then (dfsVisit g (dfsFuel g) s node).1 else s)
        s).cycles.length
  | [], s => le_refl _
  | n :: l, s => by
    rw [List.foldl_cons]
    refine Nat.le_trans ?_ (findCycles_fold_cycles_mono g l _)
    by_cases hn : n ∉ s.visited
    · rw [if_pos hn]
      exact dfsVisit_cycles_mono g _ s n
    · rw [if_neg hn]

/-- The top-level loop of `find_cycles`: if no cycle was recorded, the
final state is black-closed and black-acyclic, its recursion stack is
empty, and every processed node is visited. -/
lemma findCycles_fold_spec (g : DepGraph) :
    ∀ (l : List String) (s : DfsState),
      (∀ x ∈ l, x ∈ univFinset g) → DfsPre g s → s.recStack = [] →
      (l.foldl (fun s node =>
        if node ∉ s.visited then (dfsVisit g (dfsFuel g) s node).1 else s)
        s).cycles = [] →
      DfsPre g (l.foldl (fun s node =>
        if node ∉ s.visited then (dfsVisit g (dfsFuel g) s node).1 else s) s) ∧
      (l.foldl (fun s node =>
        if node ∉ s.visited then (dfsVisit g (dfsFuel g) s node).1 else s)
        s).recStack = [] ∧
      (∀ v ∈ s.visited, v ∈ (l.foldl (fun s node =>
        if node ∉ s.visited then (dfsVisit g (dfsFuel g) s node).1 else s)
        s).visited) ∧
      (∀ x ∈ l, x ∈ (l.foldl (fun s node =>
        if node ∉ s.visited then (dfsVisit g (dfsFuel g) s node).1 else s)
        s).visited)
  | [], s, _, hpre, hrs, _ =>
    ⟨hpre, hrs, fun v hv => hv, fun x hx => absurd hx (List.not_mem_nil x)⟩
  | n :: l, s, huniv, hpre, hrs, hcyc => by
    rw [List.foldl_cons] at hcyc ⊢
    by_cases hn : n ∉ s.visited
    · rw [if_pos hn] at hcyc ⊢
      rcases hvis : dfsVisit g (dfsFuel g) s n with ⟨s', b⟩
      rw [hvis] at hcyc
      have hspec := dfsVisit_spec g (dfsFuel g) s n hpre hn
        (huniv n (List.mem_cons_self _ _)) (unvisitedCard_lt_dfsFuel g s)
      rw [hvis] at hspec
      cases b
      · obtain ⟨hrs', _, _, hvismono, hnvis, _, _, hpre'⟩ := hspec.1 rfl
        have hrs'' : s'.recStack = [] := by
          have : s'.recStack = s.recStack := hrs'
          rw [this, hrs]
        obtain ⟨hp1, hp2, hp3, hp4⟩ := findCycles_fold_spec g l s'
          (fun x hx => huniv x (List.mem_cons_of_mem _ hx)) hpre' hrs'' hcyc
        refine ⟨hp1, hp2, fun v hv => hp3 v (hvismono v hv), ?_⟩
        intro x hx
        rcases List.mem_cons.mp hx with rfl | hx'
        · exact hp3 x hnvis
        · exact hp4 x hx'
      · exfalso
        have hne := hspec.2 rfl
        have hmono := findCycles_fold_cycles_mono g l s'
        rw [hcyc] at hmono
        simp only [List.length_nil, Nat.le_zero] at hmono
        exact hne (List.eq_nil_of_length_eq_zero hmono)
    · rw [if_neg hn] at hcyc ⊢
      push_neg at hn
      obtain ⟨hp1, hp2, hp3, hp4⟩ := findCycles_fold_spec g l s
        (fun x hx => huniv x (List.mem_cons_of_mem _ hx)) hpre hrs hcyc
      refine ⟨hp1, hp2, hp3, ?_⟩
      intro x hx
      rcases List.mem_cons.mp hx with rfl | hx'
      · exact hp3 x hn
      · exact hp4 x hx'

/-- If `find_cycles` reports nothing, the dependency relation of a
well-formed graph has no cycle at all. -/
lemma hasCycle_false_acyclic {g : DepGraph} (hwf : WF g)
    (h : hasCycle g = false) :
    ∀ u, ¬ Relation.TransGen (Edge g) u u := by
  have hfc : ((nodes g).foldl (fun s node =>
      if node ∉ s.visited then (dfsVisit g (dfsFuel g) s node).1 else s)
      ({} : DfsState)).cycles = [] := by
    have hlen : (findCycles g).length = 0 := by
      simp only [hasCycle, gt_iff_lt, decide_eq_false_iff_not, Nat.not_lt,
        Nat.le_zero] at h
      exact h
    exact List.eq_nil_of_length_eq_zero hlen
  obtain ⟨⟨hst, hcl, hac⟩, hrsf, _, hnodes⟩ := findCycles_fold_spec g
    (nodes g) {}
    (fun x hx => List.mem_toFinset.mpr (mem_univ_of_node hx))
    (dfsPre_empty g) rfl hfc
  intro u hcycle
  obtain ⟨w, hw, _⟩ := Relation.TransGen.head'_iff.mp hcycle
  have hu_node : u ∈ nodes g := hwf.edgeSrcFeature u w hw
  refine hac u ⟨hnodes u hu_node, ?_⟩ hcycle
  rw [hrsf]
  exact List.not_mem_nil u

/-- Any dependency cycle makes `topological_sort` return the empty
list. -/
lemma topologicalSort_nil_of_cycle {g : DepGraph} (hwf : WF g)
    (hcyc : ∃ u, Relation.TransGen (Edge g) u u) :
    topologicalSort g = [] := by
  rcases hb : hasCycle g with _ | _
  · obtain ⟨u, hu⟩ := hcyc
    exact absurd hu (hasCycle_false_acyclic hwf hb u)
  · simp [topologicalSort, hb]

/-! ### Kahn-loop helper lemmas -/

lemma remDeg_eq_zero_iff (g : DepGraph) (em : List String) (k : String) :
    remDeg g em k = 0 ↔ ∀ d ∈ edgesOf g k, d ∈ em := by
  simp [remDeg, List.countP_eq_zero]

lemma remDeg_pos {g : DepGraph} {em : List String} {k d : String}
    (hd : d ∈ edgesOf g k) (hdem : d ∉ em) : 0 < remDeg g em k := by
  rw [remDeg, List.countP_pos]
  exact ⟨d, hd, by simpa using hdem⟩

lemma countP_drop_one (em : List String) (node : String) :
    ∀ l : List String, l.Nodup → node ∉ em →
    l.countP (fun d => decide (d ∉ em)) =
      l.countP (fun d => decide (d ∉ em ++ [node])) +
        (if node ∈ l then 1 else 0) := by
  intro l
  induction l with
  | nil => simp
  | cons a l ih =>
    intro hnd hnode
    obtain ⟨ha, hl⟩ := List.nodup_cons.mp hnd
    rw [List.countP_cons, List.countP_cons, ih hl hnode]
    by_cases han : a = node
    · subst han
      simp [hnode, ha, List.mem_append]
    · have hmm : (node ∈ a :: l) ↔ node ∈ l := by
        simp only [List.mem_cons]
        exact or_iff_right (fun h => han h.symm)
      by_cases haem : a ∈ em
      · simp [haem, hmm]
      · have h2 : a ∉ em ++ [node] := by
          simp [List.mem_append, haem, han]
        simp only [decide_eq_true_eq, hmm, if_pos haem, if_pos h2]
        generalize List.countP (fun d => decide (d ∉ em ++ [node])) l = C
        split_ifs <;> omega

/-- Emitting one more node removes exactly its contribution from each
remaining in-degree. -/
lemma remDeg_append_singleton {g : DepGraph} (hwf : WF g) {em : List String}
    {node : String} (hnode : node ∉ em) (k : String) :
    remDeg g em k =
      remDeg g (em ++ [node]) k + (if node ∈ edgesOf g k then 1 else 0) := by
  rw [remDeg, remDeg]
  exact countP_drop_one em node (edgesOf g k) (hwf.edgesNodup k) hnode

/-- A nonempty node set in which every node has a successor inside the set
contains a dependency cycle. -/
lemma exists_cycle_of_succ (g : DepGraph) (S : List String) (hne : S ≠ [])
    (hsucc : ∀ x ∈ S, ∃ y, y ∈ S ∧ Edge g x y) :
    ∃ u, Relation.TransGen (Edge g) u u := by
  classical
  have hf : ∀ x : String, ∃ y : String, x ∈ S → y ∈ S ∧ Edge g x y := by
    intro x
    by_cases hx : x ∈ S
    · obtain ⟨y, hy⟩ := hsucc x hx
      exact ⟨y, fun _ => hy⟩
    · exact ⟨x, fun h => absurd h hx⟩
  choose f hfmem using hf
  obtain ⟨x0, hx0⟩ := List.exists_mem_of_ne_nil S hne
  have hmemσ : ∀ n, f^[n] x0 ∈ S := by
    intro n
    induction n with
    | zero => simpa using hx0
    | succ n ih =>
      rw [Function.iterate_succ_apply']
      exact (hfmem (f^[n] x0) ih).1
  have hedge : ∀ n, Edge g (f^[n] x0) (f^[n + 1] x0) := by
    intro n
    rw [Function.iterate_succ_apply']
    exact (hfmem (f^[n] x0) (hmemσ n)).2
  have htrans : ∀ m n : Nat, m < n →
      Relation.TransGen (Edge g) (f^[m] x0) (f^[n] x0) := by
    intro m n hmn
    induction n with
    | zero => omega
    | succ n ih =>
      rcases Nat.lt_succ_iff_lt_or_eq.mp hmn with h | h
      · exact (ih h).tail (hedge n)
      · subst h
        exact Relation.TransGen.single (hedge m)
  have hcard : S.toFinset.card <
      (Finset.univ : Finset (Fin (S.length + 1))).card := by
    have h1 : S.toFinset.card ≤ S.length := List.toFinset_card_le S
    rw [Finset.card_univ, Fintype.card_fin]
    omega
  obtain ⟨i, -, j, -, hij, hfij⟩ :=
    Finset.exists_ne_map_eq_of_card_lt_of_maps_to hcard
      (fun (k : Fin (S.length + 1)) _ => List.mem_toFinset.mpr (hmemσ k))
  have hijn : (i : Nat) ≠ (j : Nat) := fun h => hij (Fin.ext h)
  rcases Nat.lt_or_ge (i : Nat) (j : Nat) with h | h
  · have ht := htrans i j h
    rw [← hfij] at ht
    exact ⟨_, ht⟩
  · have hji : (j : Nat) < (i : Nat) := lt_of_le_of_ne h (fun hc => hijn hc.symm)
    have ht := htrans j i hji
    rw [hfij] at ht
    exact ⟨_, ht⟩

/-- Effect of one `in_degree[dependent] -= 1` on the running table. -/
lemma degOf_decr (m : List (String × Int)) (k q : String) :
    degOf (decr m k) q = if q = k then degOf m k - 1 else degOf m q := by
  unfold decr
  rcases h : dictGet k m with _ | v
  · by_cases hqk : q = k
    · subst hqk
      simp [degOf, dictGet_append, h, dictGet]
    · have hkq : ¬ k = q := fun hc => hqk hc.symm
      simp only [degOf, dictGet_append, if_neg hqk]
      rcases hq : dictGet q m with _ | w
      · simp [dictGet, hkq]
      · simp
  · by_cases hqk : q = k
    · subst hqk
      simp [degOf, dictGet_dictSet, h]
    · simp [degOf, dictGet_dictSet, hqk]

/-- What one pass of the dependent loop does: every dependent's in-degree
drops by one, and the zero list collects exactly the dependents whose
in-degree was 1, without duplicates. -/
lemma processDeps_spec : ∀ (ds : List String) (m : List (String × Int)),
    ds.Nodup →
    (∀ q, degOf (processDeps ds m).1 q =
      if q ∈ ds then degOf m q - 1 else degOf m q) ∧
    (∀ q, q ∈ (processDeps ds m).2 ↔ q ∈ ds ∧ degOf m q = 1) ∧
    (processDeps ds m).2.Nodup := by
  intro ds
  induction ds with
  | nil =>
    intro m _
    refine ⟨fun q => by simp [processDeps], fun q => by simp [processDeps],
      by simp [processDeps]⟩
  | cons d ds ih =>
    intro m hnd
    obtain ⟨hd, hds⟩ := List.nodup_cons.mp hnd
    obtain ⟨ih1, ih2, ih3⟩ := ih (decr m d) hds
    have hdd : degOf (decr m d) d = degOf m d - 1 := by
      rw [degOf_decr]
      simp
    have hdq : ∀ q, q ≠ d → degOf (decr m d) q = degOf m q := by
      intro q hq
      rw [degOf_decr, if_neg hq]
    have hcond : (degOf (decr m d) d = 0) ↔ degOf m d = 1 := by
      rw [hdd, sub_eq_zero]
    simp only [processDeps]
    split_ifs with hz
    · refine ⟨?_, ?_, ?_⟩
      · intro q
        rw [ih1 q]
        by_cases hqd : q = d
        · subst hqd
          have : q ∉ ds := hd
          simp [this, hdd]
        · by_cases hqds : q ∈ ds
          · simp [hqds, hqd, hdq q hqd]
          · have : ¬ q ∈ d :: ds := by
              simp [List.mem_cons, hqd, hqds]
            simp [hqds, this, hdq q hqd]
      · intro q
        simp only [List.mem_cons, ih2 q]
        constructor
        · rintro (rfl | ⟨hqds, hq1⟩)
          · exact ⟨Or.inl rfl, hcond.mp hz⟩
          · have hqd : q ≠ d := fun hc => hd (hc ▸ hqds)
            rw [hdq q hqd] at hq1
            exact ⟨Or.inr hqds, hq1⟩
        · rintro ⟨rfl | hqds, hq1⟩
          · exact Or.inl rfl
          · have hqd : q ≠ d := fun hc => hd (hc ▸ hqds)
            rw [← hdq q hqd] at hq1
            exact Or.inr ⟨hqds, hq1⟩
      · refine List.nodup_cons.mpr ⟨?_, ih3⟩
        intro hmem
        exact hd ((ih2 d).mp hmem).1
    · refine ⟨?_, ?_, ih3⟩
      · intro q
        rw [ih1 q]
        by_cases hqd : q = d
        · subst hqd
          have : q ∉ ds := hd
          simp [this, hdd]
        · by_cases hqds : q ∈ ds
          · simp [hqds, hqd, hdq q hqd]
          · have : ¬ q ∈ d :: ds := by
              simp [List.mem_cons, hqd, hqds]
            simp [hqds, this, hdq q hqd]
      · intro q
        rw [ih2 q]
        simp only [List.mem_cons]
        constructor
        · rintro ⟨hqds, hq1⟩
          have hqd : q ≠ d := fun hc => hd (hc ▸ hqds)
          rw [hdq q hqd] at hq1
          exact ⟨Or.inr hqds, hq1⟩
        · rintro ⟨rfl | hqds, hq1⟩
          · exact absurd (hcond.mpr hq1) hz
          · have hqd : q ≠ d := fun hc => hd (hc ▸ hqds)
            rw [← hdq q hqd] at hq1
            exact ⟨hqds, hq1⟩

/-- Every feature id resolves in the features dict, to a feature carrying
that id. -/
lemma nodes_dictGet {g : DepGraph} (hwf : WF g) {k : String}
    (hk : k ∈ nodes g) : ∃ f, dictGet k g.features = some f ∧ f.id = k := by
  obtain ⟨p, hp, hpk⟩ := List.mem_map.mp hk
  obtain ⟨a, f⟩ := p
  obtain rfl : a = k := hpk
  exact ⟨f, dictGet_of_mem_nodup hwf.nodesNodup hp, hwf.featureKey (a, f) hp⟩

lemma sortQueue_perm (g : DepGraph) (q : List String) :
    (sortQueue g q).Perm q :=
  List.perm_insertionSort _ q

lemma remDeg_nil (g : DepGraph) (k : String) :
    remDeg g [] k = (edgesOf g k).length := by
  simp [remDeg]

lemma dictGet_map_key {β γ : Type} (F : String → γ) :
    ∀ (m : List (String × β)) (k : String), k ∈ m.map (·.1) →
    dictGet k (m.map (fun p => (p.1, F p.1))) = some (F k) := by
  intro m
  induction m with
  | nil => intro k hk; simp at hk
  | cons p rest ih =>
    intro k hk
    obtain ⟨a, b⟩ := p
    by_cases hak : a = k
    · subst hak
      simp [dictGet]
    · simp only [List.map_cons, dictGet, if_neg hak]
      apply ih
      simp only [List.map_cons, List.mem_cons] at hk
      rcases hk with h | h
      · exact absurd h.symm hak
      · exact h

lemma degOf_inDegInit (g : DepGraph) {k : String} (hk : k ∈ nodes g) :
    degOf (inDegInit g) k = ((edgesOf g k).length : Int) := by
  rw [degOf, inDegInit,
    dictGet_map_key (fun n => ((edgesOf g n).length : Int)) g.features k hk]
  rfl

lemma sum_map_add {α : Type} (l : List α) (f h : α → Nat) :
    (l.map (fun x => f x + h x)).sum = (l.map f).sum + (l.map h).sum := by
  induction l with
  | nil => rfl
  | cons a l ih =>
    simp only [List.map_cons, List.sum_cons, ih]
    omega

lemma length_le_sum_indicator {l Z : List String} (P : String → Prop)
    [DecidablePred P] (hZ : Z.Nodup) (hsub : ∀ q ∈ Z, q ∈ l)
    (hP : ∀ q ∈ Z, P q) :
    Z.length ≤ (l.map (fun k => if P k then 1 else 0)).sum := by
  have h1 : ∀ m : List String, (m.map (fun k => if P k then 1 else 0)).sum =
      (m.filter (fun k => decide (P k))).length := by
    intro m
    induction m with
    | nil => rfl
    | cons a m ih =>
      simp only [List.map_cons, List.sum_cons, List.filter_cons,
        decide_eq_true_eq]
      by_cases hPa : P a
      · rw [if_pos hPa, if_pos hPa, ih, List.length_cons]
        omega
      · rw [if_neg hPa, if_neg hPa, ih, Nat.zero_add]
  rw [h1 l]
  have hsub' : Z ⊆ l.filter (fun k => decide (P k)) := by
    intro q hq
    exact List.mem_filter.mpr ⟨hsub q hq, by simpa using hP q hq⟩
  exact (List.subperm_of_subset hZ hsub').length_le

/-- The loop invariant holds on entry to the Kahn loop. -/
lemma kahnInv_init (g : DepGraph) (hwf : WF g) :
    KahnInv g ((nodes g).filter (fun n => degOf (inDegInit g) n = 0))
      (inDegInit g) [] := by
  refine ⟨?_, ?_, ?_, ?_, ?_, ?_⟩
  · intro f hf
    simp at hf
  · simpa using hwf.nodesNodup.filter _
  · intro x hx
    simp only [List.map_nil, List.nil_append] at hx
    exact (List.mem_filter.mp hx).1
  · intro k hk
    simp only [List.map_nil]
    rw [degOf_inDegInit g hk, remDeg_nil]
  · intro k hk _
    simp only [List.map_nil]
    rw [List.mem_filter]
    constructor
    · rintro ⟨-, h0⟩
      have h0' : degOf (inDegInit g) k = 0 := by simpa using h0
      rw [degOf_inDegInit g hk] at h0'
      rw [remDeg_nil]
      exact_mod_cast h0'
    · intro h0
      rw [remDeg_nil] at h0
      refine ⟨hk, ?_⟩
      simp [degOf_inDegInit g hk, h0]
  · intro i
    exact absurd i.isLt (by simp)

/-- The fuel passed by `topological_sort` dominates the initial loop
measure. -/
lemma kahnMeasure_init_lt (g : DepGraph) :
    kahnMeasure g [] ((nodes g).filter (fun n => degOf (inDegInit g) n = 0)) <
      kahnFuel g := by
  have h1 : ((nodes g).filter (fun n => degOf (inDegInit g) n = 0)).length ≤
      (nodes g).length := List.length_filter_le _ _
  have h2 : (nodes g).map (remDeg g []) =
      g.features.map (fun p => (edgesOf g p.1).length) := by
    have h3 : (nodes g).map (remDeg g []) =
        (nodes g).map (fun k => (edgesOf g k).length) :=
      List.map_congr_left (fun k _ => remDeg_nil g k)
    rw [h3, nodes, List.map_map]
    rfl
  rw [kahnMeasure, h2, kahnFuel]
  have h3 : (nodes g).length = g.features.length := by
    simp [nodes]
  omega

set_option maxHeartbeats 1000000 in
/-- Main correctness of the Kahn loop on a closed, well-formed, acyclic
graph: from an invariant state with sufficient fuel it emits, in some
order, exactly the features of the graph, each one after all of its
recorded dependencies. -/
lemma kahnLoop_spec (g : DepGraph) (hwf : WF g) (hC : Closed g)
    (hA : ∀ u, ¬ Relation.TransGen (Edge g) u u) :
    ∀ (fuel : Nat) (queue : List String) (inDeg : List (String × Int))
      (result : List Feature),
      KahnInv g queue inDeg result →
      kahnMeasure g (result.map (·.id)) queue < fuel →
      (∀ f ∈ kahnLoop g fuel queue inDeg result,
        dictGet f.id g.features = some f) ∧
      ((kahnLoop g fuel queue inDeg result).map (·.id)).Nodup ∧
      (∀ x, x ∈ (kahnLoop g fuel queue inDeg result).map (·.id) ↔
        x ∈ nodes g) ∧
      (∀ i : Fin (kahnLoop g fuel queue inDeg result).length,
        ∀ d ∈ edgesOf g ((kahnLoop g fuel queue inDeg result).get i).id,
        ∃ j : Fin (kahnLoop g fuel queue inDeg result).length,
          (j : Nat) < (i : Nat) ∧
            ((kahnLoop g fuel queue inDeg result).get j).id = d) := by
  intro fuel
  induction fuel with
  | zero =>
    intro queue inDeg result _ hm
    exact absurd hm (Nat.not_lt_zero _)
  | succ fuel ih =>
    intro queue inDeg result hinv hm
    obtain ⟨inv1, inv2, inv3, inv4, inv5, inv6⟩ := hinv
    rcases hsort : sortQueue g queue with _ | ⟨node, queueRest⟩
    · -- empty queue: the loop stops; closedness + acyclicity force
      -- completeness
      have hqnil : queue = [] := by
        have hp := sortQueue_perm g queue
        rw [hsort] at hp
        exact hp.symm.eq_nil
      have hstep : kahnLoop g (fuel + 1) queue inDeg result = result := by
        simp only [kahnLoop, hsort]
      rw [hstep]
      refine ⟨inv1, ?_, ?_, inv6⟩
      · have h2 := inv2
        rw [hqnil, List.append_nil] at h2
        exact h2
      · intro x
        constructor
        · intro hx
          exact inv3 x (List.mem_append.mpr (Or.inl hx))
        · intro hx
          by_contra hxem
          have hxS : x ∈ (nodes g).filter
              (fun n => decide (n ∉ result.map (·.id))) :=
            List.mem_filter.mpr ⟨hx, by simpa using hxem⟩
          have hSne : (nodes g).filter
              (fun n => decide (n ∉ result.map (·.id))) ≠ [] := by
            intro hn
            rw [hn] at hxS
            exact absurd hxS (List.not_mem_nil x)
          have hsucc : ∀ y ∈ (nodes g).filter
              (fun n => decide (n ∉ result.map (·.id))),
              ∃ z, z ∈ (nodes g).filter
                (fun n => decide (n ∉ result.map (·.id))) ∧ Edge g y z := by
            intro y hyS
            obtain ⟨hy, hyem⟩ := List.mem_filter.mp hyS
            have hyem' : y ∉ result.map (·.id) := by simpa using hyem
            have hrd : remDeg g (result.map (·.id)) y ≠ 0 := by
              intro h0
              have hyq := (inv5 y hy hyem').mpr h0
              rw [hqnil] at hyq
              exact absurd hyq (List.not_mem_nil y)
            have hex : ∃ d ∈ edgesOf g y, d ∉ result.map (·.id) := by
              by_contra hall
              push_neg at hall
              exact hrd ((remDeg_eq_zero_iff g _ y).mpr hall)
            obtain ⟨d, hd, hdem⟩ := hex
            exact ⟨d, List.mem_filter.mpr ⟨hC y d hd, by simpa using hdem⟩, hd⟩
          obtain ⟨u, hu⟩ := exists_cycle_of_succ g _ hSne hsucc
          exact hA u hu
    · -- a node is popped from the sorted queue
      have hperm : queue.Perm (node :: queueRest) := by
        have hp := sortQueue_perm g queue
        rw [hsort] at hp
        exact hp.symm
      have hnodeq : node ∈ queue := hperm.mem_iff.mpr (List.mem_cons_self _ _)
      have hnode_nodes : node ∈ nodes g :=
        inv3 node (List.mem_append.mpr (Or.inr hnodeq))
      obtain ⟨f, hfget, hfid⟩ := nodes_dictGet hwf hnode_nodes
      have hemnodup : (result.map (·.id)).Nodup := (List.nodup_append.mp inv2).1
      have hqnodup : queue.Nodup := (List.nodup_append.mp inv2).2.1
      have hdisj : ∀ x ∈ result.map (·.id), x ∉ queue :=
        fun x hx => (List.nodup_append.mp inv2).2.2 hx
      have hnodem : node ∉ result.map (·.id) := fun hc => hdisj node hc hnodeq
      have hrdnode : remDeg g (result.map (·.id)) node = 0 :=
        (inv5 node hnode_nodes hnodem).mp hnodeq
      have hdsnd : (revEdgesOf g node).Nodup := hwf.revNodup node
      have hdsmem : ∀ d, d ∈ revEdgesOf g node ↔ node ∈ edgesOf g d :=
        fun d => (hwf.transpose d node).symm
      have hdsnodes : ∀ d ∈ revEdgesOf g node, d ∈ nodes g :=
        fun d hd => hwf.edgeSrcFeature d node ((hdsmem d).mp hd)
      obtain ⟨hP1, hP2, hP3⟩ := processDeps_spec (revEdgesOf g node) inDeg hdsnd
      have hZds : ∀ q ∈ (processDeps (revEdgesOf g node) inDeg).2,
          q ∈ revEdgesOf g node := fun q hq => ((hP2 q).mp hq).1
      have hZrem : ∀ q ∈ (processDeps (revEdgesOf g node) inDeg).2,
          remDeg g (result.map (·.id)) q = 1 := by
        intro q hq
        obtain ⟨hqds, hq1⟩ := (hP2 q).mp hq
        have hqn : q ∈ nodes g := hdsnodes q hqds
        rw [inv4 q hqn] at hq1
        exact_mod_cast hq1
      have hZnotem : ∀ q ∈ (processDeps (revEdgesOf g node) inDeg).2,
          q ∉ result.map (·.id) := by
        intro q hq hqem
        obtain ⟨fq, hfq, hfqid⟩ := List.mem_map.mp hqem
        obtain ⟨i, hi⟩ := List.mem_iff_get.mp hfq
        have hnd : node ∈ edgesOf g (result.get i).id := by
          rw [hi, hfqid]
          exact (hdsmem q).mp (hZds q hq)
        obtain ⟨j, hji, hjid⟩ := inv6 i node hnd
        refine hnodem (List.mem_map.mpr ⟨result.get j, ?_, hjid⟩)
        exact List.get_mem result j j.isLt
      have hZnotq : ∀ q ∈ (processDeps (revEdgesOf g node) inDeg).2,
          q ∉ queue := by
        intro q hq hqq
        have hqn := hdsnodes q (hZds q hq)
        have h0 := (inv5 q hqn (hZnotem q hq)).mp hqq
        have h1 := hZrem q hq
        omega
      have hem' : (result ++ [f]).map (·.id) = result.map (·.id) ++ [node] := by
        rw [List.map_append]
        simp [hfid]
      have inv1' : ∀ f' ∈ result ++ [f],
          dictGet f'.id g.features = some f' := by
        intro f' hf'
        rcases List.mem_append.mp hf' with h | h
        · exact inv1 f' h
        · obtain rfl : f' = f := by simpa using h
          rw [hfid]
          exact hfget
      have hbig : ((result.map (·.id) ++ [node]) ++
          (queueRest ++ (processDeps (revEdgesOf g node) inDeg).2)).Perm
          ((result.map (·.id) ++ queue) ++
            (processDeps (revEdgesOf g node) inDeg).2) := by
        have h1 : (result.map (·.id) ++ [node]) ++
            (queueRest ++ (processDeps (revEdgesOf g node) inDeg).2) =
            (result.map (·.id) ++ (node :: queueRest)) ++
              (processDeps (revEdgesOf g node) inDeg).2 := by
          simp [List.append_assoc]
        rw [h1]
        exact (List.Perm.append_left _ hperm.symm).append_right _
      have inv2' : ((result.map (·.id) ++ [node]) ++
          (queueRest ++ (processDeps (revEdgesOf g node) inDeg).2)).Nodup := by
        refine hbig.nodup_iff.mpr (List.nodup_append.mpr ⟨inv2, hP3, ?_⟩)
        intro a ha haZ
        rcases List.mem_append.mp ha with h | h
        · exact hZnotem a haZ h
        · exact hZnotq a haZ h
      have inv3' : ∀ x ∈ (result.map (·.id) ++ [node]) ++
          (queueRest ++ (processDeps (revEdgesOf g node) inDeg).2),
          x ∈ nodes g := by
        intro x hx
        rcases List.mem_append.mp hx with h | h
        · rcases List.mem_append.mp h with h' | h'
          · exact inv3 x (List.mem_append.mpr (Or.inl h'))
          · obtain rfl : x = node := by simpa using h'
            exact hnode_nodes
        · rcases List.mem_append.mp h with h' | h'
          · exact inv3 x (List.mem_append.mpr
              (Or.inr (hperm.mem_iff.mpr (List.mem_cons_of_mem _ h'))))
          · exact hdsnodes x (hZds x h')
      have inv4' : ∀ k ∈ nodes g,
          degOf (processDeps (revEdgesOf g node) inDeg).1 k =
            (remDeg g (result.map (·.id) ++ [node]) k : Int) := by
        intro k hk
        rw [hP1 k]
        have hsplit := remDeg_append_singleton hwf hnodem k
        by_cases hkds : k ∈ revEdgesOf g node
        · have hke : node ∈ edgesOf g k := (hdsmem k).mp hkds
          rw [if_pos hkds, inv4 k hk]
          rw [if_pos hke] at hsplit
          omega
        · have hke : node ∉ edgesOf g k := fun hc => hkds ((hdsmem k).mpr hc)
          rw [if_neg hkds, inv4 k hk]
          rw [if_neg hke] at hsplit
          omega
      have inv5' : ∀ k ∈ nodes g, k ∉ result.map (·.id) ++ [node] →
          (k ∈ queueRest ++ (processDeps (revEdgesOf g node) inDeg).2 ↔
            remDeg g (result.map (·.id) ++ [node]) k = 0) := by
        intro k hk hkem'
        have hkem : k ∉ result.map (·.id) :=
          fun hc => hkem' (List.mem_append.mpr (Or.inl hc))
        have hknode : k ≠ node :=
          fun hc => hkem' (List.mem_append.mpr (Or.inr (by simp [hc])))
        have hsplit := remDeg_append_singleton hwf hnodem k
        constructor
        · intro hkq
          rcases List.mem_append.mp hkq with h | h
          · have hkqueue : k ∈ queue :=
              hperm.mem_iff.mpr (List.mem_cons_of_mem _ h)
            have h0 : remDeg g (result.map (·.id)) k = 0 :=
              (inv5 k hk hkem).mp hkqueue
            by_cases hke : node ∈ edgesOf g k
            · have := remDeg_pos hke hnodem
              omega
            · rw [if_neg hke] at hsplit
              omega
          · have h1 := hZrem k h
            have hke : node ∈ edgesOf g k := (hdsmem k).mp (hZds k h)
            rw [if_pos hke] at hsplit
            omega
        · intro h0'
          by_cases hke : node ∈ edgesOf g k
          · rw [if_pos hke] at hsplit
            have h1 : remDeg g (result.map (·.id)) k = 1 := by omega
            have hkds : k ∈ revEdgesOf g node := (hdsmem k).mpr hke
            have hdeg1 : degOf inDeg k = 1 := by
              rw [inv4 k hk, h1]
              simp
            exact List.mem_append.mpr (Or.inr ((hP2 k).mpr ⟨hkds, hdeg1⟩))
          · rw [if_neg hke] at hsplit
            have h0 : remDeg g (result.map (·.id)) k = 0 := by omega
            have hkq : k ∈ queue := (inv5 k hk hkem).mpr h0
            rcases List.mem_cons.mp (hperm.mem_iff.mp hkq) with hc | hc
            · exact absurd hc hknode
            · exact List.mem_append.mpr (Or.inl hc)
      have hlen1 : ∀ m : Nat, m < result.length →
          m < (result ++ [f]).length := by
        intro m hmlt
        simp only [List.length_append, List.length_cons, List.length_nil]
        omega
      have inv6' : ∀ i : Fin (result ++ [f]).length,
          ∀ d ∈ edgesOf g ((result ++ [f]).get i).id,
          ∃ j : Fin (result ++ [f]).length,
            (j : Nat) < (i : Nat) ∧ ((result ++ [f]).get j).id = d := by
        intro i d hd
        have hilen : (i : Nat) < result.length + 1 := by
          have hi2 := i.isLt
          simpa using hi2
        by_cases hi : (i : Nat) < result.length
        · have hgeti : (result ++ [f]).get i = result.get ⟨i, hi⟩ := by
            rw [List.get_eq_getElem, List.get_eq_getElem]
            exact List.getElem_append_left hi
          rw [hgeti] at hd
          obtain ⟨j, hji, hjid⟩ := inv6 ⟨i, hi⟩ d hd
          refine ⟨⟨j, hlen1 j j.isLt⟩, ?_, ?_⟩
          · exact hji
          · have hgetj : (result ++ [f]).get ⟨j, hlen1 j j.isLt⟩ =
                result.get j := by
              rw [List.get_eq_getElem, List.get_eq_getElem]
              exact List.getElem_append_left j.isLt
            rw [hgetj]
            exact hjid
        · have hieq : (i : Nat) = result.length := by omega
          have hgeti : (result ++ [f]).get i = f := by
            rw [List.get_eq_getElem]
            rw [List.getElem_append_right (by omega)]
            simp [hieq]
          rw [hgeti, hfid] at hd
          have hdem : d ∈ result.map (·.id) :=
            (remDeg_eq_zero_iff g _ node).mp hrdnode d hd
          obtain ⟨fd, hfd, hfdid⟩ := List.mem_map.mp hdem
          obtain ⟨j, hj⟩ := List.mem_iff_get.mp hfd
          refine ⟨⟨j, hlen1 j j.isLt⟩, ?_, ?_⟩
          · show (j : Nat) < (i : Nat)
            have hj2 := j.isLt
            omega
          · have hgetj : (result ++ [f]).get ⟨j, hlen1 j j.isLt⟩ =
                result.get j := by
              rw [List.get_eq_getElem, List.get_eq_getElem]
              exact List.getElem_append_left j.isLt
            rw [hgetj, hj]
            exact hfdid
      have hsum : ((nodes g).map (remDeg g (result.map (·.id)))).sum =
          ((nodes g).map (remDeg g (result.map (·.id) ++ [node]))).sum +
            ((nodes g).map
              (fun k => if node ∈ edgesOf g k then 1 else 0)).sum := by
        have h1 : (nodes g).map (remDeg g (result.map (·.id))) =
            (nodes g).map
              (fun k => remDeg g (result.map (·.id) ++ [node]) k +
                if node ∈ edgesOf g k then 1 else 0) :=
          List.map_congr_left
            (fun k _ => remDeg_append_singleton hwf hnodem k)
        rw [h1, sum_map_add]
      have hZlen : (processDeps (revEdgesOf g node) inDeg).2.length ≤
          ((nodes g).map
            (fun k => if node ∈ edgesOf g k then 1 else 0)).sum :=
        length_le_sum_indicator (fun k => node ∈ edgesOf g k) hP3
          (fun q hq => hdsnodes q (hZds q hq))
          (fun q hq => (hdsmem q).mp (hZds q hq))
      have hqlen : queue.length = queueRest.length + 1 := by
        simpa using hperm.length_eq
      have hm' : kahnMeasure g (result.map (·.id) ++ [node])
          (queueRest ++ (processDeps (revEdgesOf g node) inDeg).2) <
            fuel := by
        unfold kahnMeasure at hm ⊢
        rw [List.length_append]
        omega
      have hinv' : KahnInv g
          (queueRest ++ (processDeps (revEdgesOf g node) inDeg).2)
          (processDeps (revEdgesOf g node) inDeg).1 (result ++ [f]) := by
        refine ⟨inv1', ?_, ?_, ?_, ?_, inv6'⟩
        · rw [hem']
          exact inv2'
        · intro x hx
          rw [hem'] at hx
          exact inv3' x hx
        · intro k hk
          rw [hem']
          exact inv4' k hk
        · intro k hk hkem
          rw [hem'] at hkem
          rw [hem']
          exact inv5' k hk hkem
      have hstep : kahnLoop g (fuel + 1) queue inDeg result =
          kahnLoop g fuel
            (queueRest ++ (processDeps (revEdgesOf g node) inDeg).2)
            (processDeps (revEdgesOf g node) inDeg).1 (result ++ [f]) := by
        simp only [kahnLoop, hsort, hfget]
      rw [hstep]
      refine ih _ _ _ hinv' ?_
      rw [hem']
      exact hm'

/-- Full correctness of `topological_sort` on a closed well-formed acyclic
graph: the output is a permutation of the stored features, and every
feature is emitted after each of its dependencies. -/
lemma topologicalSort_correct {g : DepGraph} (hwf : WF g) (hC : Closed g)
    (hb : hasCycle g = false) :
    (topologicalSort g).Perm (g.features.map Prod.snd) ∧
    (∀ i : Fin (topologicalSort g).length,
      ∀ d ∈ ((topologicalSort g).get i).dependencies,
      ∃ j : Fin (topologicalSort g).length,
        (j : Nat) < (i : Nat) ∧ ((topologicalSort g).get j).id = d) := by
  have hA := hasCycle_false_acyclic hwf hb
  have hts : topologicalSort g =
      kahnLoop g (kahnFuel g)
        ((nodes g).filter (fun n => degOf (inDegInit g) n = 0))
        (inDegInit g) [] := by
    unfold topologicalSort
    rw [if_neg (by simp [hb])]
  obtain ⟨hout1, hout2, hout3, hout4⟩ := kahnLoop_spec g hwf hC hA
    (kahnFuel g) ((nodes g).filter (fun n => degOf (inDegInit g) n = 0))
    (inDegInit g) [] (kahnInv_init g hwf)
    (by simpa using kahnMeasure_init_lt g)
  rw [hts]
  constructor
  · have hpairs : ((kahnLoop g (kahnFuel g)
        ((nodes g).filter (fun n => degOf (inDegInit g) n = 0))
        (inDegInit g) []).map (fun f => (f.id, f))).Subperm g.features := by
      apply List.subperm_of_subset
      · refine List.Nodup.of_map Prod.fst ?_
        rw [List.map_map]
        exact hout2
      · intro p hp
        obtain ⟨f, hf, rfl⟩ := List.mem_map.mp hp
        exact dictGet_mem (hout1 f hf)
    have hlen : g.features.length ≤ (kahnLoop g (kahnFuel g)
        ((nodes g).filter (fun n => degOf (inDegInit g) n = 0))
        (inDegInit g) []).length := by
      have h2 : List.Subperm (nodes g) ((kahnLoop g (kahnFuel g)
          ((nodes g).filter (fun n => degOf (inDegInit g) n = 0))
          (inDegInit g) []).map (·.id)) :=
        List.subperm_of_subset hwf.nodesNodup (fun x hx => (hout3 x).mpr hx)
      have h3 := h2.length_le
      simpa [nodes] using h3
    have hpairsperm := hpairs.perm_of_length_le (by simpa using hlen)
    have h4 := hpairsperm.map Prod.snd
    have h5 : ((kahnLoop g (kahnFuel g)
        ((nodes g).filter (fun n => degOf (inDegInit g) n = 0))
        (inDegInit g) []).map (fun f => (f.id, f))).map Prod.snd =
        kahnLoop g (kahnFuel g)
          ((nodes g).filter (fun n => degOf (inDegInit g) n = 0))
          (inDegInit g) [] := by
      rw [List.map_map]
      exact List.map_id _
    rw [h5] at h4
    exact h4
  · intro i d hd
    have hfmem : ((kahnLoop g (kahnFuel g)
        ((nodes g).filter (fun n => degOf (inDegInit g) n = 0))
        (inDegInit g) []).get i) ∈ kahnLoop g (kahnFuel g)
        ((nodes g).filter (fun n => degOf (inDegInit g) n = 0))
        (inDegInit g) [] := List.get_mem _ i i.isLt
    have hpair := dictGet_mem (hout1 _ hfmem)
    have hedge := hwf.depsRecorded _ hpair d hd
    exact hout4 i d hedge

/-- The executable closedness check is sound. -/
lemma closed_of_closedCheck {g : DepGraph} (h : closedCheck g = true) :
    Closed g := by
  intro u v hv
  have hv' : v ∈ (dictGet u g.edges).getD [] := hv
  rcases hget : dictGet u g.edges with _ | l
  · rw [hget] at hv'
    simp at hv'
  · rw [hget] at hv'
    simp only [Option.getD_some] at hv'
    have hmem := dictGet_mem hget
    rw [closedCheck, List.all_eq_true] at h
    have h2 := h (u, l) hmem
    rw [List.all_eq_true] at h2
    simpa using h2 v hv'

end DepGraph

/-! ## C2 / C3 / C10 — message bus delivery -/

lemma pairwise_trivial {α : Type} {R : α → α → Prop} (h : ∀ a b, R a b) :
    ∀ l : List α, l.Pairwise R
  | [] => List.Pairwise.nil
  | a :: l => List.Pairwise.cons (fun b _ => h a b) (pairwise_trivial h l)

lemma msg_lt_iff (a b : Message) : Message.lt a b = true ↔
    (a.priority < b.priority ∨
      (a.priority = b.priority ∧ a.timestamp < b.timestamp)) := by
  simp only [Message.lt]
  split_ifs with h
  · simp only [decide_eq_true_eq]
    constructor
    · exact fun hlt => Or.inl hlt
    · rintro (hlt | ⟨heq, _⟩)
      · exact hlt
      · exact absurd heq h
  · push_neg at h
    simp only [decide_eq_true_eq]
    constructor
    · exact fun hts => Or.inr ⟨h, hts⟩
    · rintro (hlt | ⟨_, hts⟩)
      · omega
      · exact hts

lemma msg_lt_false_iff (a b : Message) : Message.lt a b = false ↔
    ¬ (a.priority < b.priority ∨
      (a.priority = b.priority ∧ a.timestamp < b.timestamp)) := by
  rw [← msg_lt_iff]
  cases h : Message.lt a b <;> simp

lemma priority_le_of_lt_false {a b : Message} (h : Message.lt a b = false) :
    b.priority ≤ a.priority := by
  rw [msg_lt_false_iff] at h
  push_neg at h
  omega

lemma msg_lt_asymm {a b : Message} (h : Message.lt a b = true) :
    Message.lt b a = false := by
  rw [msg_lt_iff] at h
  rw [msg_lt_false_iff]
  omega

lemma msg_lt_negtrans {a b c : Message} (h₁ : Message.lt a b = false)
    (h₂ : Message.lt b c = false) : Message.lt a c = false := by
  rw [msg_lt_false_iff] at h₁ h₂ ⊢
  omega

lemma popMinMsg_eq_none : ∀ {l : List Message}, popMinMsg l = none → l = []
  | [], _ => rfl
  | a :: l, h => by
    exfalso
    simp only [popMinMsg] at h
    rcases hp : popMinMsg l with _ | ⟨m', r'⟩ <;> simp only [hp] at h
    · exact Option.noConfusion h
    · split at h <;> exact Option.noConfusion h

/-- `heappop` returns a minimal element and the rest of the multiset. -/
lemma popMinMsg_spec : ∀ (l : List Message) (m : Message) (rest : List Message),
    popMinMsg l = some (m, rest) →
    (m :: rest).Perm l ∧ ∀ x ∈ rest, Message.lt x m = false := by
  intro l
  induction l with
  | nil => intro m rest h; cases h
  | cons a l ih =>
    intro m rest h
    simp only [popMinMsg] at h
    rcases hl : popMinMsg l with _ | ⟨m', rest'⟩ <;> simp only [hl] at h
    · have hln : l = [] := popMinMsg_eq_none hl
      cases h
      subst hln
      exact ⟨List.Perm.refl _, by simp⟩
    · obtain ⟨hperm', hmin'⟩ := ih m' rest' hl
      by_cases hlt : Message.lt m' a = true
      · rw [if_pos hlt] at h
        cases h
        constructor
        · exact (List.Perm.swap _ _ _).trans (hperm'.cons a)
        · intro x hx
          rcases List.mem_cons.mp hx with rfl | hx'
          · exact msg_lt_asymm hlt
          · exact hmin' x hx'
      · rw [if_neg hlt] at h
        cases h
        refine ⟨List.Perm.refl _, fun x hx => ?_⟩
        have hm'a : Message.lt m' a = false := by
          cases hh : Message.lt m' a
          · rfl
          · exact absurd hh hlt
        rcases List.mem_cons.mp (hperm'.mem_iff.mpr hx) with rfl | hx'
        · exact hm'a
        · exact msg_lt_negtrans (hmin' x hx') hm'a

lemma flatMap_handlers_nil {subs : List (String × Handler)}
    (hS : ∀ p ∈ subs, ∀ m, p.2 m = []) (m : Message) :
    subs.flatMap (fun s => s.2 m) = [] := by
  induction subs with
  | nil => rfl
  | cons p rest ih =>
    simp only [List.flatMap_cons]
    rw [hS p (List.mem_cons_self _ _) m,
      ih (fun x hx => hS x (List.mem_cons_of_mem _ hx))]
    rfl

lemma pushHistory_no_trunc {hist : List Message} {maxH : Nat} (m : Message)
    (h : hist.length + 1 ≤ maxH) : pushHistory hist maxH m = hist ++ [m] := by
  simp only [pushHistory]
  rw [if_neg]
  simp only [List.length_append, List.length_cons, List.length_nil]
  omega

lemma lookup_mem {β : Type} : ∀ {l : List (String × β)} {k : String} {v : β},
    l.lookup k = some v → (k, v) ∈ l
  | [], k, v, h => by cases h
  | (a, b) :: rest, k, v, h => by
    simp only [List.lookup] at h
    cases hab : (k == a) with
    | true =>
      rw [hab] at h
      obtain rfl : b = v := by simpa using h
      have : k = a := by simpa using hab
      subst this
      exact List.mem_cons_self _ _
    | false =>
      rw [hab] at h
      exact List.mem_cons_of_mem _ (lookup_mem h)

/-- Accumulator shift: the count and log parameters of `deliverLoop` are
pure accumulators. -/
lemma deliverLoop_shift (subs : List (String × Handler)) (maxH : Nat) :
    ∀ (fuel : Nat) (q hist : List Message) (count : Nat)
      (log : List (String × Message)),
      deliverLoop subs maxH fuel q hist count log =
        ((deliverLoop subs maxH fuel q hist 0 []).1,
         (deliverLoop subs maxH fuel q hist 0 []).2.1,
         count + (deliverLoop subs maxH fuel q hist 0 []).2.2.1,
         log ++ (deliverLoop subs maxH fuel q hist 0 []).2.2.2) := by
  intro fuel
  induction fuel with
  | zero => intro q hist count log; simp [deliverLoop]
  | succ fuel ih =>
    intro q hist count log
    rcases hpop : popMinMsg q with _ | ⟨m, rest⟩
    · simp [deliverLoop, hpop]
    · by_cases hbc : m.recipient = "*"
      · simp only [deliverLoop, hpop, if_pos hbc]
        rw [ih _ _ (count + subs.length), ih _ _ (0 + subs.length)]
        simp [Nat.add_assoc, Nat.add_comm, Nat.add_left_comm]
      · rcases hlk : subs.lookup m.recipient with _ | h
        · simp only [deliverLoop, hpop, if_neg hbc, hlk]
          exact ih _ _ count log
        · simp only [deliverLoop, hpop, if_neg hbc, hlk]
          rw [ih _ _ (count + 1), ih _ _ (0 + 1)]
          simp [Nat.add_assoc, Nat.add_comm, Nat.add_left_comm]

/-- The spec-side count: what each drained message contributes to the
return value of `deliver()`. -/
def countFormula (subs : List (String × Handler)) (q : List Message) : Nat :=
  (q.map (msgDeliveryCount subs)).sum

/-- Main characterization of a `deliver()` whose handlers publish
nothing: the queue is fully drained, every logged delivery is of a
pending message, deliveries happen in non-decreasing priority order, the
returned count is the handler-invocation count and matches the
per-message formula, and (while the history stays under its bound) every
drained message lands in the history. -/
lemma deliverLoop_silent (subs : List (String × Handler)) (maxH : Nat)
    (hS : ∀ p ∈ subs, ∀ m, p.2 m = []) :
    ∀ (fuel : Nat) (q hist : List Message), q.length ≤ fuel →
      (deliverLoop subs maxH fuel q hist 0 []).1 = [] ∧
      (∀ e ∈ (deliverLoop subs maxH fuel q hist 0 []).2.2.2, e.2 ∈ q) ∧
      (deliverLoop subs maxH fuel q hist 0 []).2.2.2.Pairwise
        (fun e₁ e₂ => e₁.2.priority ≤ e₂.2.priority) ∧
      (deliverLoop subs maxH fuel q hist 0 []).2.2.1 = countFormula subs q ∧
      (deliverLoop subs maxH fuel q hist 0 []).2.2.1 =
        (deliverLoop subs maxH fuel q hist 0 []).2.2.2.length ∧
      (hist.length + q.length ≤ maxH →
        ∀ x, (x ∈ hist ∨ x ∈ q) →
          x ∈ (deliverLoop subs maxH fuel q hist 0 []).2.1) := by
  intro fuel
  induction fuel with
  | zero =>
    intro q hist hlen
    have hq : q = [] := List.eq_nil_of_length_eq_zero (Nat.le_zero.mp hlen)
    subst hq
    simp [deliverLoop, countFormula]
  | succ fuel ih =>
    intro q hist hlen
    rcases hpop : popMinMsg q with _ | ⟨m, rest⟩
    · have hq : q = [] := popMinMsg_eq_none hpop
      subst hq
      simp [deliverLoop, countFormula, hpop]
    · obtain ⟨hperm, hmin⟩ := popMinMsg_spec q m rest hpop
      have hqlen : q.length = rest.length + 1 := by
        have := hperm.length_eq
        simpa using this.symm
      have hrest : rest.length ≤ fuel := by omega
      have hcf : countFormula subs q =
          msgDeliveryCount subs m + countFormula subs rest := by
        have h1 : (q.map (msgDeliveryCount subs)).sum =
            ((m :: rest).map (msgDeliveryCount subs)).sum :=
          (hperm.map (msgDeliveryCount subs)).sum_eq.symm
        simpa [countFormula] using h1
      -- the recursive tail is always a silent run on `rest`
      by_cases hbc : m.recipient = "*"
      · have hpubs : subs.flatMap (fun s => s.2 m) = [] :=
          flatMap_handlers_nil hS m
        have hstep : deliverLoop subs maxH (fuel + 1) q hist 0 [] =
            deliverLoop subs maxH fuel rest (pushHistory hist maxH m)
              subs.length (subs.map (fun s => (s.1, m))) := by
          simp only [deliverLoop, hpop, if_pos hbc, hpubs, List.append_nil]
          simp
        obtain ⟨ih1, ih2, ih3, ih4, ih5, ih6⟩ :=
          ih rest (pushHistory hist maxH m) hrest
        rw [hstep, deliverLoop_shift]
        refine ⟨ih1, ?_, ?_, ?_, ?_, ?_⟩
        · intro e he
          rcases List.mem_append.mp he with he | he
          · have : e.2 = m := by
              rcases List.mem_map.mp he with ⟨s, _, rfl⟩
              rfl
            rw [this]
            exact hperm.mem_iff.mp (List.mem_cons_self _ _)
          · exact hperm.mem_iff.mp (List.mem_cons_of_mem _ (ih2 e he))
        · rw [List.pairwise_append]
          refine ⟨?_, ih3, ?_⟩
          · rw [List.pairwise_map]
            exact pairwise_trivial (fun _ _ => le_refl _) _
          · intro e₁ h₁ e₂ h₂
            have hm1 : e₁.2 = m := by
              rcases List.mem_map.mp h₁ with ⟨s, _, rfl⟩; rfl
            have hm2 : e₂.2 ∈ rest := ih2 e₂ h₂
            rw [hm1]
            exact priority_le_of_lt_false (hmin _ hm2)
        · simp only [List.length_map] at *
          rw [ih4, hcf]
          simp [msgDeliveryCount, hbc]
        · simp only [List.length_append, List.length_map]
          omega
        · intro hbound x hx
          have hb1 : hist.length + 1 ≤ maxH := by omega
          have hpush : pushHistory hist maxH m = hist ++ [m] :=
            pushHistory_no_trunc m hb1
          refine ih6 ?_ x ?_
          · rw [hpush]; simp; omega
          · rcases hx with hx | hx
            · exact Or.inl (by rw [hpush]; exact List.mem_append_left _ hx)
            · rcases List.mem_cons.mp (hperm.mem_iff.mpr hx) with rfl | hx'
              · exact Or.inl (by rw [hpush]; simp)
              · exact Or.inr hx'
      · rcases hlk : subs.lookup m.recipient with _ | h
        · have hstep : deliverLoop subs maxH (fuel + 1) q hist 0 [] =
              deliverLoop subs maxH fuel rest (pushHistory hist maxH m) 0 [] := by
            simp only [deliverLoop, hpop, if_neg hbc, hlk]
          obtain ⟨ih1, ih2, ih3, ih4, ih5, ih6⟩ :=
            ih rest (pushHistory hist maxH m) hrest
          rw [hstep]
          refine ⟨ih1, ?_, ih3, ?_, ih5, ?_⟩
          · intro e he
            exact hperm.mem_iff.mp (List.mem_cons_of_mem _ (ih2 e he))
          · rw [ih4, hcf]
            simp [msgDeliveryCount, hbc, hlk]
          · intro hbound x hx
            have hb1 : hist.length + 1 ≤ maxH := by omega
            have hpush : pushHistory hist maxH m = hist ++ [m] :=
              pushHistory_no_trunc m hb1
            refine ih6 ?_ x ?_
            · rw [hpush]; simp; omega
            · rcases hx with hx | hx
              · exact Or.inl (by rw [hpush]; exact List.mem_append_left _ hx)
              · rcases List.mem_cons.mp (hperm.mem_iff.mpr hx) with rfl | hx'
                · exact Or.inl (by rw [hpush]; simp)
                · exact Or.inr hx'
        · have hnil : h m = [] := by
            have hmem : (m.recipient, h) ∈ subs := lookup_mem hlk
            exact hS _ hmem m
          have hstep : deliverLoop subs maxH (fuel + 1) q hist 0 [] =
              deliverLoop subs maxH fuel rest (pushHistory hist maxH m)
                1 [(m.recipient, m)] := by
            simp only [deliverLoop, hpop, if_neg hbc, hlk, hnil, List.append_nil]
            simp
          obtain ⟨ih1, ih2, ih3, ih4, ih5, ih6⟩ :=
            ih rest (pushHistory hist maxH m) hrest
          rw [hstep, deliverLoop_shift]
          refine ⟨ih1, ?_, ?_, ?_, ?_, ?_⟩
          · intro e he
            rcases List.mem_append.mp he with he | he
            · have : e = (m.recipient, m) := by simpa using he
              rw [this]
              exact hperm.mem_iff.mp (List.mem_cons_self _ _)
            · exact hperm.mem_iff.mp (List.mem_cons_of_mem _ (ih2 e he))
          · rw [List.pairwise_append]
            refine ⟨by simp, ih3, ?_⟩
            intro e₁ h₁ e₂ h₂
            have hm1 : e₁ = (m.recipient, m) := by simpa using h₁
            have hm2 : e₂.2 ∈ rest := ih2 e₂ h₂
            rw [hm1]
            exact priority_le_of_lt_false (hmin _ hm2)
          · rw [ih4, hcf]
            simp [msgDeliveryCount, hbc, hlk]
          · simp only [List.length_append, List.length_cons, List.length_nil]
            omega
          · intro hbound x hx
            have hb1 : hist.length + 1 ≤ maxH := by omega
            have hpush : pushHistory hist maxH m = hist ++ [m] :=
              pushHistory_no_trunc m hb1
            refine ih6 ?_ x ?_
            · rw [hpush]; simp; omega
            · rcases hx with hx | hx
              · exact Or.inl (by rw [hpush]; exact List.mem_append_left _ hx)
              · rcases List.mem_cons.mp (hperm.mem_iff.mpr hx) with rfl | hx'
                · exact Or.inl (by rw [hpush]; simp)
                · exact Or.inr hx'

/-- **C2 counterexample.**  With a handler that publishes a CRITICAL
message while `deliver()` is draining, a NORMAL message (priority 3) and
the CRITICAL one (priority 1) are both delivered in the same call, but
the CRITICAL one comes second: the claimed priority ordering over all
message pairs delivered in one call fails. -/
theorem deliver_priority_inversion_counterexample :
    (c3Bus.deliver 10).log.map (fun e => e.2.priority) = [3, 1] ∧
    ¬ (∀ i j : Fin (c3Bus.deliver 10).log.length,
        ((c3Bus.deliver 10).log.get i).2.priority <
          ((c3Bus.deliver 10).log.get j).2.priority → (i : Nat) < j) := by
  constructor
  · rfl
  · decide

/-- **C2 amended.**  When no handler publishes during the call (so every
delivered message was pending when `deliver()` began), deliveries happen
in ascending priority order — for delivered log entries `i`, `j`, if
entry `i` has strictly smaller priority value it was delivered earlier —
and the queue is fully drained.  In particular the LOW/CRITICAL/NORMAL
scenario yields CRITICAL, NORMAL, LOW (see the witness). -/
theorem deliver_priority_order (bus : MessageBus) (fuel : Nat)
    (hS : ∀ p ∈ bus.subscribers, ∀ m, p.2 m = [])
    (hfuel : bus.queue.length ≤ fuel) :
    (∀ i j : Fin (bus.deliver fuel).log.length,
      ((bus.deliver fuel).log.get i).2.priority <
        ((bus.deliver fuel).log.get j).2.priority → (i : Nat) < j) ∧
    (bus.deliver fuel).bus.queue = [] := by
  obtain ⟨h1, _, h3, _, _, _⟩ :=
    deliverLoop_silent bus.subscribers bus.maxHistory hS fuel bus.queue
      bus.history hfuel
  have hpw : (bus.deliver fuel).log.Pairwise
      (fun e₁ e₂ => e₁.2.priority ≤ e₂.2.priority) := h3
  have hq : (bus.deliver fuel).bus.queue = [] := h1
  refine ⟨?_, hq⟩
  intro i j hlt
  rcases Nat.lt_trichotomy (i : Nat) (j : Nat) with h | h | h
  · exact h
  · exfalso
    have : ((bus.deliver fuel).log.get i) = ((bus.deliver fuel).log.get j) := by
      congr 1
      exact Fin.ext h
    rw [this] at hlt
    exact lt_irrefl _ hlt
  · exfalso
    have := (List.pairwise_iff_get.mp hpw) j i (by exact_mod_cast h)
    omega

/-- Witness for C2 (amended): the spec's LOW, CRITICAL, NORMAL scenario —
one subscriber, silent handler — delivers CRITICAL (1), NORMAL (3),
LOW (4) in that order and drains the queue. -/
theorem deliver_priority_order_witness :
    ((∀ i j : Fin (c2Bus.deliver 3).log.length,
        ((c2Bus.deliver 3).log.get i).2.priority <
          ((c2Bus.deliver 3).log.get j).2.priority → (i : Nat) < j) ∧
      (c2Bus.deliver 3).bus.queue = []) ∧
    (c2Bus.deliver 3).log.map (fun e => (e.1, e.2.priority)) =
      [("a", 1), ("a", 3), ("a", 4)] :=
  ⟨deliver_priority_order c2Bus 3
      (fun p hp m => by rcases List.mem_singleton.mp hp with rfl; rfl)
      (by decide),
    rfl⟩

/-- **C3 counterexample.**  The CRITICAL message published by the handler
DURING the `deliver()` call was not pending before the call, yet it is
delivered within the same call, and the queue is empty afterwards — it
does not wait for the next invocation. -/
theorem republished_message_same_call_counterexample :
    c3Crit ∉ c3Bus.queue ∧
    ("a", c3Crit) ∈ (c3Bus.deliver 10).log ∧
    (c3Bus.deliver 10).bus.queue = [] := by decide

/-- **C3 amended.**  A message published to the bus by a handler while
`deliver()` is in progress IS delivered during the same `deliver()` call
(the drain loop runs until the queue is empty, including messages pushed
mid-call); nothing is left for the next invocation, which delivers
nothing. -/
theorem republished_message_same_call_trace :
    (c3Bus.deliver 10).log = [("a", c3Trigger), ("a", c3Crit)] ∧
    (c3Bus.deliver 10).delivered = 2 ∧
    (c3Bus.deliver 10).bus.queue = [] ∧
    ((c3Bus.deliver 10).bus.deliver 10).delivered = 0 ∧
    ((c3Bus.deliver 10).bus.deliver 10).log = [] := by decide

/-- **C10.**  The count returned by `deliver()` is the number of handler
invocations: each drained message contributes `|subscribers|` if it is a
broadcast, 1 if its recipient has a handler, and 0 otherwise — and every
drained message (including ones nobody handles) is appended to the
bounded history. -/
theorem deliver_count_is_handler_invocations (bus : MessageBus) (fuel : Nat)
    (hS : ∀ p ∈ bus.subscribers, ∀ m, p.2 m = [])
    (hfuel : bus.queue.length ≤ fuel)
    (hhist : bus.history.length + bus.queue.length ≤ bus.maxHistory) :
    (bus.deliver fuel).delivered = countFormula bus.subscribers bus.queue ∧
    (bus.deliver fuel).delivered = (bus.deliver fuel).log.length ∧
    ∀ m ∈ bus.queue, m ∈ (bus.deliver fuel).bus.history := by
  obtain ⟨_, _, _, h4, h5, h6⟩ :=
    deliverLoop_silent bus.subscribers bus.maxHistory hS fuel bus.queue
      bus.history hfuel
  exact ⟨h4, h5, fun m hm => h6 hhist m (Or.inr hm)⟩

/-- Witness for C10: a broadcast to two subscribers (2 invocations), a
direct message (1), and a message to an unregistered recipient (0, but
still recorded in history): `deliver()` returns 3. -/
theorem deliver_count_is_handler_invocations_witness :
    (c10Bus.deliver 3).delivered = countFormula c10Bus.subscribers c10Bus.queue ∧
    countFormula c10Bus.subscribers c10Bus.queue = 3 ∧
    c10Ghost ∈ (c10Bus.deliver 3).bus.history :=
  ⟨(deliver_count_is_handler_invocations c10Bus 3
      (fun p hp m => by
        rcases List.mem_cons.mp hp with rfl | hp'
        · rfl
        · rcases List.mem_singleton.mp hp' with rfl; rfl)
      (by decide) (by decide)).1,
    by decide,
    (deliver_count_is_handler_invocations c10Bus 3
      (fun p hp m => by
        rcases List.mem_cons.mp hp with rfl | hp'
        · rfl
        · rcases List.mem_singleton.mp hp' with rfl; rfl)
      (by decide) (by decide)).2.2 c10Ghost (by decide)⟩

/-! ## C8 — BUSY iff current task present -/

/-- **C8 amended.**  For every reachable agent state, BUSY implies a
current task is present; the converse direction of the claimed "BUSY iff
current_task present" invariant fails (see the shutdown
counterexample). -/
theorem busy_implies_task_present (a : AgentState) (h : AgentReachable a) :
    a.status = AgentStatus.busy → a.currentTask.isSome := by
  induction h with
  | init i => intro hc; simp [AgentState.init] at hc
  | assign t now ha ih => intro _; simp [AgentState.assignTask]
  | complete success output error now ha ih =>
    intro hc; simp [AgentState.completeTask] at hc
  | startSteal ha ih => intro hc; simp [AgentState.startStealing] at hc
  | stopSteal ha ih =>
    intro hc
    unfold AgentState.stopStealing at hc ⊢
    split_ifs at hc ⊢ with hs
    exact ih hc
  | stop ha ih => intro hc; simp [AgentState.stop] at hc

/-- Witness for C8 (amended): a freshly assigned agent is BUSY and indeed
holds a task. -/
theorem busy_implies_task_present_witness :
    ((AgentState.init "agent-0").assignTask c4t1 5).currentTask.isSome :=
  busy_implies_task_present _
    (AgentReachable.assign c4t1 5 (AgentReachable.init "agent-0")) rfl

/-- **C8 counterexample.**  `shutdown()` while agent-0 is BUSY with t1
leaves the agent STOPPED with `current_task` still present, so "status
is BUSY iff current_task is present" fails on this reachable state. -/
theorem shutdown_busy_agent_counterexample :
    c8Agent.status = AgentStatus.stopped ∧
    c8Agent.currentTask.map (·.taskId) = some "t1" ∧
    ¬ (c8Agent.status = AgentStatus.busy ↔ c8Agent.currentTask.isSome = true) := by
  decide

/-- Symbolic evaluation of `has_cycle` on the open one-feature graph. -/
lemma hasCycle_c1OpenGraph : DepGraph.hasCycle c1OpenGraph = false := by
  simp [DepGraph.hasCycle, DepGraph.findCycles, DepGraph.dfsFuel,
    DepGraph.universeNodes, DepGraph.nodes, c1OpenGraph, DepGraph.ofList,
    DepGraph.addFeature, dfsVisit, dfsNeighbors, dfsEnter, dfsExit,
    appendCycle, DepGraph.edgesOf, dictGet, dictSet, setAdd, setMapAdd,
    List.insert]

/-- Symbolic evaluation of `has_cycle` on the closed two-node chain. -/
lemma hasCycle_c1Chain :
    DepGraph.hasCycle (DepGraph.ofList c1ChainList) = false := by
  simp [DepGraph.hasCycle, DepGraph.findCycles, DepGraph.dfsFuel,
    DepGraph.universeNodes, DepGraph.nodes, c1ChainList, DepGraph.ofList,
    DepGraph.addFeature, dfsVisit, dfsNeighbors, dfsEnter, dfsExit,
    appendCycle, DepGraph.edgesOf, dictGet, dictSet, setAdd, setMapAdd,
    List.insert]

/-- **C1 counterexample.**  `add_feature("A", deps=["B"])` with `"B"` never
added: `has_cycle()` returns `false` and the graph stores one feature, yet
`topological_sort()` returns `[]` — not every feature exactly once (`"A"`
starts at in-degree 1 and no removal ever decrements it). -/
theorem topological_sort_open_graph_counterexample :
    DepGraph.hasCycle c1OpenGraph = false ∧
    c1OpenGraph.features.length = 1 ∧
    DepGraph.topologicalSort c1OpenGraph = [] := by
  refine ⟨hasCycle_c1OpenGraph, by decide, ?_⟩
  unfold DepGraph.topologicalSort
  rw [if_neg (by simp [hasCycle_c1OpenGraph])]
  decide

/-- **C1 (amended).**  For every graph built through `add_feature` that is
closed (every recorded dependency is itself a feature), if `has_cycle()`
returns `false` then `topological_sort()` returns every stored feature
exactly once — a permutation of the features dict's values — in an order
where each feature appears after all of its dependencies; and for every
graph with a dependency cycle, `topological_sort()` returns the empty
list.  The closedness proviso is necessary: see
`topological_sort_open_graph_counterexample`. -/
theorem topological_sort_spec (fs : List Feature) :
    (DepGraph.Closed (DepGraph.ofList fs) →
      DepGraph.hasCycle (DepGraph.ofList fs) = false →
      (DepGraph.topologicalSort (DepGraph.ofList fs)).Perm
        ((DepGraph.ofList fs).features.map Prod.snd) ∧
      (∀ i : Fin (DepGraph.topologicalSort (DepGraph.ofList fs)).length,
        ∀ d ∈ ((DepGraph.topologicalSort (DepGraph.ofList fs)).get i).dependencies,
        ∃ j : Fin (DepGraph.topologicalSort (DepGraph.ofList fs)).length,
          (j : Nat) < (i : Nat) ∧
            ((DepGraph.topologicalSort (DepGraph.ofList fs)).get j).id = d)) ∧
    ((∃ u, Relation.TransGen (DepGraph.Edge (DepGraph.ofList fs)) u u) →
      DepGraph.topologicalSort (DepGraph.ofList fs) = []) :=
  ⟨fun hC hb => DepGraph.topologicalSort_correct (DepGraph.wf_ofList fs) hC hb,
   fun hcyc =>
    DepGraph.topologicalSort_nil_of_cycle (DepGraph.wf_ofList fs) hcyc⟩

/-- **C1 witness.**  The closed two-node chain A→B sorts to a permutation
of its features, and the self-loop graph sorts to `[]`. -/
theorem topological_sort_spec_witness :
    (DepGraph.topologicalSort (DepGraph.ofList c1ChainList)).Perm
      ((DepGraph.ofList c1ChainList).features.map Prod.snd) ∧
    DepGraph.topologicalSort (DepGraph.ofList c1LoopList) = [] :=
  ⟨((topological_sort_spec c1ChainList).1
      (DepGraph.closed_of_closedCheck (by decide)) hasCycle_c1Chain).1,
   (topological_sort_spec c1LoopList).2
     ⟨"X", Relation.TransGen.single (by decide)⟩⟩

end AutoDev
